import Mathlib

/-
Verification of the saga-package execution engine.

Shallow embedding of src/src/package/saga.ts and
src/src/package/workflow-manager.ts.  JavaScript promises are collapsed
to a deterministic sequential semantics: a parallel stage runs every
active step to completion (promises are never cancelled) and, when
several of them fail, the rejection that surfaces from Promise.all is
modelled as the first failing step in declaration order.  Effectful step
actions are modelled as functions that also receive the attempt index,
so that one attempt may fail while a later retry succeeds.  Context
values are modelled as natural numbers; a context is an ordered
association list of string keys, mirroring a plain JavaScript object.
-/

namespace SagaSpec

abbrev Err := String

abbrev Ctx := List (String × Nat)

/-- A JavaScript value as far as the engine inspects one: the result of a
step action is either a plain object (a record of fields), undefined,
null, a string, a number or a boolean. -/
inductive JsValue where
  | obj (fields : List (String × Nat))
  | undef
  | jsNull
  | str (s : String)
  | num (n : Int)
  | bool (b : Bool)
deriving DecidableEq

/-- JavaScript truthiness of a value, as tested by the merge guard. -/
def truthy : JsValue → Bool
  | .obj _ => true
  | .undef => false
  | .jsNull => false
  | .str s => !(s = "")
  | .num n => !(n = 0)
  | .bool b => b

/-- The JavaScript typeof operator restricted to the values above; note
that typeof null is the string object. -/
def typeofJs : JsValue → String
  | .obj _ => "object"
  | .undef => "undefined"
  | .jsNull => "object"
  | .str _ => "string"
  | .num _ => "number"
  | .bool _ => "boolean"

/-- Assignment of one key, as performed by Object.assign: an existing key
keeps its position and is overwritten, a new key is appended. -/
def setKey (c : Ctx) (k : String) (v : Nat) : Ctx :=
  if c.any (fun kv => kv.1 = k) then
    c.map (fun kv => if kv.1 = k then (k, v) else kv)
  else
    c ++ [(k, v)]

/-- Object.assign of a whole record into the context, key by key in field
order. -/
def objAssign (c : Ctx) (fs : List (String × Nat)) : Ctx :=
  fs.foldl (fun a kv => setKey a kv.1 kv.2) c

/-- The merge step of execute: the guard is literally
result and typeof result equals object, so a falsy value (undefined,
null, empty string, zero, false) and a truthy non-object (string,
number, true) are both discarded. -/
def mergeResult (c : Ctx) (v : JsValue) : Ctx :=
  if truthy v && (typeofJs v = "object") then
    match v with
    | .obj fs => objAssign c fs
    | _ => c
  else c

/-- Does the guard of mergeResult accept the value, i.e. is it a real
object. -/
def isObjV : JsValue → Bool
  | .obj _ => true
  | _ => false

/-- One saga step, mirroring the Step type of saga.ts.  The action takes
the context and additionally the attempt index (effect oracle: a real
action is effectful and may behave differently when retried); it either
returns a JavaScript value or throws.  The compensate function either
succeeds or throws.  maxReruns is optional in the source, and the engine
reads it as maxReruns or zero. -/
structure Step where
  name : String
  action : Ctx → Nat → Except Err JsValue
  compensate : Ctx → Except Err Unit
  skip : Bool := false
  maxReruns : Option Nat := none

/-- A stage of the saga: a single step or a list of steps meant to run
concurrently (SagaStep of saga.ts). -/
inductive SagaStep where
  | single (s : Step)
  | par (ss : List Step)

/-- A trace entry (StepExecution of saga.ts): the stage together with the
context snapshot(s) its step action(s) received. -/
inductive StepExecution where
  | single (step : Step) (context : Ctx)
  | par (steps : List Step) (contexts : List Ctx)

/-- The saga configuration: the stage list and the optional global
compensate hook. -/
structure Saga where
  steps : List SagaStep
  lastCompensate : Option (Ctx → Except Err Unit) := none

/-- Observable events of one run: an action invocation (with attempt
index and the context it received), a per-step compensate invocation
(with the context it received), and the global compensate hook
invocation. -/
inductive Event where
  | actionCall (name : String) (attempt : Nat) (ctx : Ctx)
  | compCall (name : String) (ctx : Ctx)
  | globalCompCall (ctx : Ctx)
deriving DecidableEq

/-- The retry loop of executeStepWithRetry: fuel counts the remaining
attempts, attempt is the current attempt index, lastError the error of
the previous attempt. -/
def retryLoop (s : Step) (stepContext : Ctx) :
    Nat → Nat → Err → List Event × Except Err JsValue
  | 0, _, lastError => ([], .error lastError)
  | fuel + 1, attempt, _ =>
    match s.action stepContext attempt with
    | .ok v => ([.actionCall s.name attempt stepContext], .ok v)
    | .error e =>
      let rest := retryLoop s stepContext fuel (attempt + 1) e
      (.actionCall s.name attempt stepContext :: rest.1, rest.2)

/-- executeStepWithRetry of saga.ts: attempts the action while
attempt is at most maxReruns, so maxReruns plus one times in total;
a success returns immediately, and once the budget is exhausted the last
error is rethrown. -/
def executeStepWithRetry (s : Step) (stepContext : Ctx) (maxReruns : Nat) :
    List Event × Except Err JsValue :=
  retryLoop s stepContext (maxReruns + 1) 0 ""

/-- The result value of the retry wrapper at the rerun budget the engine
uses for the step. -/
def retryRes (s : Step) (c : Ctx) : Except Err JsValue :=
  (executeStepWithRetry s c (s.maxReruns.getD 0)).2

/-- Processing of one trace entry inside the compensation loop.  For a
single step the stored snapshot is passed to its compensate.  For a
parallel entry every compensate is invoked (the promises are all created
before Promise.all awaits them, so one rejection does not prevent a
sibling invocation); when some of them reject, the rejection surfacing
from Promise.all is modelled as the first one in declaration order. -/
def compEntry : StepExecution → List Event × Except Err Unit
  | .single s c => ([.compCall s.name c], s.compensate c)
  | .par ss cs =>
    let pairs := ss.zip cs
    let evs := pairs.map (fun p => Event.compCall p.1.name p.2)
    let firstErr := pairs.findSome? (fun p =>
      match p.1.compensate p.2 with
      | .error e => some e
      | .ok _ => none)
    (evs, match firstErr with
          | some e => .error e
          | none => .ok ())

/-- The for-loop of compensate over the reversed trace.  The whole loop
sits inside one try block: the first entry whose compensation throws
aborts the loop, and the thrown error is the caught (logged) error
returned in the second component. -/
def compLoop : List StepExecution → List Event × Option Err
  | [] => ([], none)
  | e :: rest =>
    let r := compEntry e
    match r.2 with
    | .ok _ =>
      let later := compLoop rest
      (r.1 ++ later.1, later.2)
    | .error err => (r.1, some err)

/-- compensate of saga.ts: iterate the completed steps in reverse order;
any error thrown inside the loop is caught and logged; the finally block
then invokes the global compensate hook (when registered) with the
accumulated context.  The function itself only rejects when the global
hook rejects. -/
def compensate (saga : Saga) (completedSteps : List StepExecution)
    (context : Ctx) : List Event × Except Err Unit :=
  let looped := compLoop completedSteps.reverse
  match saga.lastCompensate with
  | none => (looped.1, .ok ())
  | some f => (looped.1 ++ [.globalCompCall context], f context)

/-- The first rejection surfacing from Promise.all over the results of a
parallel stage, modelled as the first error in declaration order. -/
def firstError (rs : List (Except Err JsValue)) : Option Err :=
  rs.findSome? (fun r =>
    match r with
    | .error e => some e
    | .ok _ => none)

/-- The steps of a parallel stage that are dispatched: the skipped ones
are filtered out first. -/
def activeOf (ss : List Step) : List Step :=
  ss.filter (fun s => !s.skip)

/-- The retry-wrapped runs of the steps of a parallel stage, each against
its own snapshot of the current context. -/
def stageRuns (ctx : Ctx) (ss : List Step) :
    List (List Event × Except Err JsValue) :=
  ss.map (fun s => executeStepWithRetry s ctx (s.maxReruns.getD 0))

/-- The merge of a parallel stage: every fulfilled result is folded into
the context in declaration order through the mergeResult guard. -/
def mergeAll (c : Ctx) (rs : List (Except Err JsValue)) : Ctx :=
  rs.foldl (fun acc r =>
    match r with
    | .ok v => mergeResult acc v
    | .error _ => acc) c

/-- The main loop of execute, one iteration per stage, threading the
accumulated context and the completed-steps trace.  It returns the
events of the run, the trace as it stood at termination, and the outcome
(the final context, or the error execute rejects with).  On a stage
failure the trace accumulated so far is compensated and execute rethrows
the stage error — unless compensate itself rejected (only possible
through the global hook), in which case that rejection replaces it. -/
def execGo (saga : Saga) :
    List SagaStep → Ctx → List StepExecution →
    List Event × List StepExecution × Except Err Ctx
  | [], context, trace => ([], trace, .ok context)
  | .single s :: rest, context, trace =>
    if s.skip then execGo saga rest context trace
    else
      let stepContext := context
      let run := executeStepWithRetry s stepContext (s.maxReruns.getD 0)
      match run.2 with
      | .ok v =>
        let context2 := mergeResult context v
        let later := execGo saga rest context2 (trace ++ [.single s stepContext])
        (run.1 ++ later.1, later.2)
      | .error e =>
        let comp := compensate saga trace context
        (run.1 ++ comp.1, trace,
          match comp.2 with
          | .ok _ => .error e
          | .error he => .error he)
  | .par ss :: rest, context, trace =>
    let activeSteps := activeOf ss
    if activeSteps.isEmpty then execGo saga rest context trace
    else
      let stepContexts := activeSteps.map (fun _ => context)
      let runs := stageRuns context activeSteps
      let evs := runs.flatMap (fun r => r.1)
      match firstError (runs.map (fun r => r.2)) with
      | some e =>
        let comp := compensate saga trace context
        (evs ++ comp.1, trace,
          match comp.2 with
          | .ok _ => .error e
          | .error he => .error he)
      | none =>
        let context2 := mergeAll context (runs.map (fun r => r.2))
        let later := execGo saga rest context2
          (trace ++ [.par activeSteps stepContexts])
        (evs ++ later.1, later.2)

/-- execute of saga.ts: run the stages in order against a copy of the
initial context with an initially empty trace. -/
def execute (saga : Saga) (initialContext : Ctx) :
    List Event × List StepExecution × Except Err Ctx :=
  execGo saga saga.steps initialContext []

/-- addGlobalCompensate of saga.ts: store the hook, replacing any
previously registered one. -/
def addGlobalCompensate (saga : Saga)
    (f : Ctx → Except Err Unit) : Saga :=
  { saga with lastCompensate := some f }

/-- The steps of one stage. -/
def stageSteps : SagaStep → List Step
  | .single s => [s]
  | .par ss => ss

/-- All steps of a list of stages, in declaration order. -/
def stagesSteps (stages : List SagaStep) : List Step :=
  stages.flatMap stageSteps

/-- All steps of a saga. -/
def sagaSteps (saga : Saga) : List Step :=
  stagesSteps saga.steps

/-- The steps stored in one trace entry. -/
def entrySteps : StepExecution → List Step
  | .single s _ => [s]
  | .par ss _ => ss

/-- The steps stored in a trace. -/
def traceSteps (trace : List StepExecution) : List Step :=
  trace.flatMap entrySteps

/-- The (name, snapshot) pairs of one trace entry, in the order its
compensations are dispatched. -/
def entryPairs : StepExecution → List (String × Ctx)
  | .single s c => [(s.name, c)]
  | .par ss cs => (ss.zip cs).map (fun p => (p.1.name, p.2))

/-- The (name, snapshot) pairs the compensation of a trace dispatches, in
dispatch order: the trace in reverse order of stage completion. -/
def traceCompPairs (trace : List StepExecution) : List (String × Ctx) :=
  trace.reverse.flatMap entryPairs

/-- The per-step compensate invocations recorded in an event list, in
order, as (name, context) pairs. -/
def compCalls (evs : List Event) : List (String × Ctx) :=
  evs.filterMap (fun ev =>
    match ev with
    | .compCall n c => some (n, c)
    | _ => none)

/-- Is the event a compensation event (per-step or global hook). -/
def isCompEvent : Event → Bool
  | .compCall _ _ => true
  | .globalCompCall _ => true
  | .actionCall _ _ _ => false

/-- Is the event the global hook invocation. -/
def isGlobalComp : Event → Bool
  | .globalCompCall _ => true
  | _ => false

/-- The step name an event refers to, if any. -/
def eventName : Event → Option String
  | .actionCall n _ _ => some n
  | .compCall n _ => some n
  | .globalCompCall _ => none

/-- WorkflowExecutionResult of workflow-manager.ts.  Run identifiers and
timestamps are injected as natural numbers, since the source draws them
from ambient UUID and clock sources. -/
structure ExecutionResult where
  workflowName : String
  runId : Nat
  success : Bool
  finalContext : Ctx
  error : Option Err
  executedAt : Nat
deriving DecidableEq

/-- WorkflowDefinition of workflow-manager.ts, at the level of the
execution semantics. -/
structure WorkflowDefinition where
  name : String
  saga : Saga
  createdAt : Nat
  lastExecutedAt : Option Nat := none
  executionHistory : List ExecutionResult := []

/-- The manager state: its Map of workflows, modelled as an ordered
association list (a JavaScript Map preserves insertion order). -/
structure WorkflowManager where
  workflows : List (String × WorkflowDefinition) := []

/-- JavaScript Map.set: replace the entry in place when the key exists,
append otherwise. -/
def mapSet (ws : List (String × WorkflowDefinition)) (nm : String)
    (d : WorkflowDefinition) : List (String × WorkflowDefinition) :=
  if ws.any (fun p => p.1 = nm) then
    ws.map (fun p => if p.1 = nm then (nm, d) else p)
  else
    ws ++ [(nm, d)]

/-- Map.get on the manager state. -/
def lookupWorkflow (m : WorkflowManager) (nm : String) :
    Option WorkflowDefinition :=
  (m.workflows.find? (fun p => p.1 = nm)).map (fun p => p.2)

/-- The history update of runWorkflow: push the result, then keep only
the last 10 entries when the count exceeds 10 (slice of the last ten). -/
def pushHistory (h : List ExecutionResult) (r : ExecutionResult) :
    List ExecutionResult :=
  let h2 := h ++ [r]
  if 10 < h2.length then h2.drop (h2.length - 10) else h2

/-- The last n entries of a list. -/
def lastN (n : Nat) (l : List α) : List α :=
  l.drop (l.length - n)

/-- The WorkflowExecutionResult runWorkflow builds from one execution of
the stored saga: on success it carries the final context, on failure an
empty context and the error. -/
def workflowResult (nm : String) (saga : Saga) (init : Ctx)
    (runId t : Nat) : ExecutionResult :=
  match (execute saga init).2.2 with
  | .ok c => ⟨nm, runId, true, c, none, t⟩
  | .error e => ⟨nm, runId, false, [], some e, t⟩

/-- runWorkflow of workflow-manager.ts: look the definition up (reject an
unknown name), execute a clone of the stored saga (executing the stored
saga itself is equivalent here because execution does not mutate the
configuration in this pure model), record the result in the bounded
history and in lastExecutedAt, then return the result, rethrowing the
run error on failure.  The updated manager state is returned in either
case, because the history update happens before the rethrow. -/
def runWorkflow (m : WorkflowManager) (nm : String) (init : Ctx)
    (runId t : Nat) : WorkflowManager × Except Err ExecutionResult :=
  match lookupWorkflow m nm with
  | none => (m, .error ("Workflow with name " ++ nm ++ " does not exist"))
  | some d =>
    let result := workflowResult nm d.saga init runId t
    let d2 := { d with
      lastExecutedAt := some t
      executionHistory := pushHistory d.executionHistory result }
    let m2 : WorkflowManager := ⟨mapSet m.workflows nm d2⟩
    (m2, if result.success then .ok result
         else .error (result.error.getD ""))

/-- getWorkflowHistory of workflow-manager.ts: the stored history (the
source returns a fresh array holding the same entries), or an empty list
for an unknown name. -/
def getWorkflowHistory (m : WorkflowManager) (nm : String) :
    List ExecutionResult :=
  match lookupWorkflow m nm with
  | some d => d.executionHistory
  | none => []

/-
Reference-level model of the saga configuration, for the claims about
object sharing.  JavaScript Step objects are mutable and shared by
reference: clone copies the stage array but keeps the same Step
objects.  The heap is the store of Step configuration objects, and a
saga holds references (heap indices) to them.
-/

/-- The mutable configuration of one Step object (the fields the
configuration mutators touch). -/
structure StepConfig where
  name : String
  skip : Bool := false
  maxReruns : Option Nat := none
deriving DecidableEq

abbrev Heap := List StepConfig

abbrev StepRef := Nat

/-- A stage at the reference level: a single Step reference or a group of
them. -/
inductive SagaStepRef where
  | single (r : StepRef)
  | par (rs : List StepRef)
deriving DecidableEq

/-- A saga at the reference level: the stage array.  Execution state is
irrelevant to the configuration claims. -/
structure SagaObj where
  steps : List SagaStepRef
deriving DecidableEq

/-- clone of saga.ts at the reference level: a fresh Saga whose stage
array is a shallow copy — the same Step references. -/
def cloneObj (s : SagaObj) : SagaObj :=
  ⟨s.steps⟩

/-- All Step references of a saga, in iteration order of the
configuration methods. -/
def refsOf (s : SagaObj) : List StepRef :=
  s.steps.flatMap (fun st =>
    match st with
    | .single r => [r]
    | .par rs => rs)

/-- In-place update of the heap cell at one index. -/
def modifyAt : Heap → Nat → (StepConfig → StepConfig) → Heap
  | [], _, _ => []
  | c :: rest, 0, f => f c :: rest
  | c :: rest, n + 1, f => c :: modifyAt rest n f

/-- The per-object mutation setStepReruns performs: set maxReruns when
the name matches. -/
def setRerunsFn (nm : String) (n : Nat) (cfg : StepConfig) : StepConfig :=
  if cfg.name = nm then { cfg with maxReruns := some n } else cfg

/-- setStepReruns of saga.ts at the reference level: walk the stage array
and mutate, in the shared heap, every referenced Step object whose name
matches. -/
def setStepRerunsH (h : Heap) (s : SagaObj) (nm : String) (n : Nat) : Heap :=
  (refsOf s).foldl (fun acc i => modifyAt acc i (setRerunsFn nm n)) h

/-- The Step objects a saga references, read through the heap in
iteration order. -/
def stepListH (h : Heap) (s : SagaObj) : List StepConfig :=
  (refsOf s).filterMap (fun i => h.get? i)

/-- getStepReruns of saga.ts at the reference level: the maxReruns of the
first referenced Step whose name matches, or none when no step matches
(the source returns undefined in both the not-found and the unset
case). -/
def getStepRerunsH (h : Heap) (s : SagaObj) (nm : String) : Option Nat :=
  match (stepListH h s).find? (fun cfg => cfg.name = nm) with
  | some cfg => cfg.maxReruns
  | none => none

/-- addStep of saga.ts at the reference level: push onto the stage
array. -/
def addStepObj (s : SagaObj) (st : SagaStepRef) : SagaObj :=
  ⟨s.steps ++ [st]⟩

/-- insertStepAt of saga.ts at the reference level: splice into the stage
array. -/
def insertStepAtObj (s : SagaObj) (st : SagaStepRef) (i : Nat) : SagaObj :=
  ⟨s.steps.take i ++ [st] ++ s.steps.drop i⟩

/-- removeStep of saga.ts at the reference level: drop a matching single
stage, filter matching members out of a group, and drop the group when
it becomes empty. -/
def removeStepObj (h : Heap) (s : SagaObj) (nm : String) : SagaObj :=
  ⟨s.steps.filterMap (fun st =>
    match st with
    | .single r =>
      if (h.get? r).map (fun cfg => cfg.name) = some nm then none
      else some (.single r)
    | .par rs =>
      let f := rs.filter (fun r =>
        !((h.get? r).map (fun cfg => cfg.name) = some nm))
      if f.isEmpty then none else some (.par f))⟩

/-- A registry entry at the reference level. -/
structure WorkflowDefObj where
  name : String
  saga : SagaObj
  createdAt : Nat
deriving DecidableEq

/-- The manager at the reference level. -/
structure WorkflowManagerObj where
  workflows : List (String × WorkflowDefObj) := []
deriving DecidableEq

/-- registerWorkflow of workflow-manager.ts: reject a duplicate name,
otherwise store a definition holding a clone of the saga (the source
also tags the saga with the workflow name and wires the state
repository; neither affects the step configuration modelled here). -/
def registerWorkflowObj (m : WorkflowManagerObj) (nm : String)
    (s : SagaObj) (t : Nat) : Except Err WorkflowManagerObj :=
  if m.workflows.any (fun p => p.1 = nm) then
    .error ("Workflow with name " ++ nm ++ " already exists")
  else
    .ok ⟨m.workflows ++ [(nm, ⟨nm, cloneObj s, t⟩)]⟩

/-- Map.get at the reference level. -/
def lookupWorkflowObj (m : WorkflowManagerObj) (nm : String) :
    Option WorkflowDefObj :=
  (m.workflows.find? (fun p => p.1 = nm)).map (fun p => p.2)

/-
Lemmas about the retry wrapper.
-/

theorem retryLoop_events_shape (s : Step) (c : Ctx) :
    ∀ fuel attempt le ev, ev ∈ (retryLoop s c fuel attempt le).1 →
      ∃ a, ev = .actionCall s.name a c := by
  intro fuel
  induction fuel with
  | zero => intro attempt le ev h; simp [retryLoop] at h
  | succ n ih =>
    intro attempt le ev h
    simp only [retryLoop] at h
    cases hact : s.action c attempt with
    | ok v => rw [hact] at h; simp at h; exact ⟨attempt, h⟩
    | error e =>
      rw [hact] at h
      simp at h
      rcases h with h | h
      · exact ⟨attempt, h⟩
      · exact ih (attempt + 1) e ev h

theorem retryLoop_length (s : Step) (c : Ctx) :
    ∀ fuel attempt le, (retryLoop s c fuel attempt le).1.length ≤ fuel := by
  intro fuel
  induction fuel with
  | zero => intro attempt le; simp [retryLoop]
  | succ n ih =>
    intro attempt le
    simp only [retryLoop]
    cases hact : s.action c attempt with
    | ok v => simp
    | error e =>
      simp only [List.length_cons]
      exact Nat.succ_le_succ (ih (attempt + 1) e)

theorem executeStepWithRetry_length (s : Step) (c : Ctx) (m : Nat) :
    (executeStepWithRetry s c m).1.length ≤ m + 1 :=
  retryLoop_length s c (m + 1) 0 ""

/-- If the action fails on the attempts before k and succeeds on attempt
k, the loop started at any attempt index at or below k with enough fuel
returns the success and performs exactly the attempts up to k. -/
theorem retryLoop_succeeds (s : Step) (c : Ctx) (k : Nat) (v : JsValue)
    (hfail : ∀ a, a < k → ∃ e, s.action c a = .error e)
    (hsucc : s.action c k = .ok v) :
    ∀ fuel attempt le, attempt ≤ k → k < attempt + fuel →
      (retryLoop s c fuel attempt le).2 = .ok v ∧
      (retryLoop s c fuel attempt le).1.length = k + 1 - attempt := by
  intro fuel
  induction fuel with
  | zero => intro attempt le h1 h2; omega
  | succ n ih =>
    intro attempt le h1 h2
    simp only [retryLoop]
    by_cases hak : attempt = k
    · subst hak
      rw [hsucc]
      exact ⟨rfl, by simp only [List.length_cons, List.length_nil]; omega⟩
    · have hlt : attempt < k := by omega
      obtain ⟨e, he⟩ := hfail attempt hlt
      rw [he]
      have := ih (attempt + 1) e (by omega) (by omega)
      simp only []
      refine ⟨this.1, ?_⟩
      simp [this.2]
      omega

theorem executeStepWithRetry_succeeds (s : Step) (c : Ctx) (m k : Nat)
    (v : JsValue) (hk : k ≤ m)
    (hfail : ∀ a, a < k → ∃ e, s.action c a = .error e)
    (hsucc : s.action c k = .ok v) :
    (executeStepWithRetry s c m).2 = .ok v ∧
    (executeStepWithRetry s c m).1.length = k + 1 := by
  have := retryLoop_succeeds s c k v hfail hsucc (m + 1) 0 "" (by omega)
    (by omega)
  exact ⟨this.1, by simpa using this.2⟩

/-- If every attempt within the budget fails, the loop rethrows the error
of the last attempt and performs every attempt. -/
theorem retryLoop_exhausts (s : Step) (c : Ctx) (es : Nat → Err) (m : Nat)
    (hfail : ∀ a, a ≤ m → s.action c a = .error (es a)) :
    ∀ fuel attempt le, 0 < fuel → attempt + fuel = m + 1 →
      (retryLoop s c fuel attempt le).2 = .error (es m) ∧
      (retryLoop s c fuel attempt le).1.length = fuel := by
  intro fuel
  induction fuel with
  | zero => intro attempt le h0 h; omega
  | succ n ih =>
    intro attempt le h0 h
    simp only [retryLoop]
    rw [hfail attempt (by omega)]
    by_cases hn : n = 0
    · subst hn
      have : attempt = m := by omega
      subst this
      simp [retryLoop]
    · have := ih (attempt + 1) (es attempt) (by omega) (by omega)
      simp only []
      exact ⟨this.1, by simp [this.2]⟩

theorem executeStepWithRetry_exhausts (s : Step) (c : Ctx)
    (es : Nat → Err) (m : Nat)
    (hfail : ∀ a, a ≤ m → s.action c a = .error (es a)) :
    (executeStepWithRetry s c m).2 = .error (es m) ∧
    (executeStepWithRetry s c m).1.length = m + 1 :=
  retryLoop_exhausts s c es m hfail (m + 1) 0 "" (by omega) (by omega)

/-
Lemmas about compensation.
-/

theorem compCalls_append (a b : List Event) :
    compCalls (a ++ b) = compCalls a ++ compCalls b := by
  simp [compCalls]

theorem compEntry_events_shape (e : StepExecution) :
    ∀ ev ∈ (compEntry e).1, ∃ n c, ev = .compCall n c := by
  intro ev h
  cases e with
  | single s c => simp [compEntry] at h; exact ⟨s.name, c, h⟩
  | par ss cs =>
    simp [compEntry] at h
    obtain ⟨a, b, _, hev⟩ := h
    exact ⟨a.name, b, hev.symm⟩

theorem compCalls_compEntry (e : StepExecution) :
    compCalls (compEntry e).1 = entryPairs e := by
  cases e with
  | single s c => simp [compEntry, compCalls, entryPairs]
  | par ss cs =>
    simp only [compEntry, entryPairs, compCalls]
    induction ss.zip cs with
    | nil => simp
    | cons p rest ih => simp [ih]

theorem compEntry_names (e : StepExecution) :
    ∀ ev ∈ (compEntry e).1, ∀ n, eventName ev = some n →
      ∃ s ∈ entrySteps e, s.name = n := by
  intro ev hev n hn
  cases e with
  | single s c =>
    simp [compEntry] at hev
    subst hev
    simp [eventName] at hn
    exact ⟨s, by simp [entrySteps], hn⟩
  | par ss cs =>
    simp [compEntry] at hev
    obtain ⟨a, b, hab, hev⟩ := hev
    subst hev
    simp [eventName] at hn
    exact ⟨a, by simp [entrySteps]; exact List.of_mem_zip hab |>.1, hn⟩

/-- The (step, snapshot) pairs a trace entry dispatches compensations
over. -/
def entryZip : StepExecution → List (Step × Ctx)
  | .single s c => [(s, c)]
  | .par ss cs => ss.zip cs

theorem findSomeErr_none :
    ∀ (l : List (Step × Ctx)), (∀ p ∈ l, p.1.compensate p.2 = .ok ()) →
      l.findSome? (fun p =>
        match p.1.compensate p.2 with
        | .error e => some e
        | .ok _ => none) = none := by
  intro l
  induction l with
  | nil => intro _; simp
  | cons p rest ih =>
    intro h
    have hp := h p (by simp)
    simp only [List.findSome?_cons, hp]
    exact ih (fun q hq => h q (by simp [hq]))

/-- If every compensate stored in an entry succeeds on its snapshot, the
entry processes successfully. -/
theorem compEntry_ok (e : StepExecution)
    (h : ∀ p ∈ entryZip e, p.1.compensate p.2 = .ok ()) :
    (compEntry e).2 = .ok () := by
  cases e with
  | single s c =>
    have := h (s, c) (by simp [entryZip])
    simp only [compEntry]
    exact this
  | par ss cs =>
    simp only [compEntry]
    rw [findSomeErr_none (ss.zip cs) (fun p hp => h p (by simpa [entryZip] using hp))]

theorem compLoop_all_ok (tr : List StepExecution)
    (h : ∀ e ∈ tr, (compEntry e).2 = .ok ()) :
    compLoop tr = (tr.flatMap (fun e => (compEntry e).1), none) := by
  induction tr with
  | nil => simp [compLoop]
  | cons e rest ih =>
    have he := h e (by simp)
    simp only [compLoop, he]
    rw [ih (fun x hx => h x (by simp [hx]))]
    simp

theorem compLoop_no_global (tr : List StepExecution) :
    ∀ ev ∈ (compLoop tr).1, isGlobalComp ev = false := by
  induction tr with
  | nil => intro ev h; simp [compLoop] at h
  | cons e rest ih =>
    intro ev h
    simp only [compLoop] at h
    cases hc : (compEntry e).2 with
    | ok _ =>
      rw [hc] at h
      simp at h
      rcases h with h | h
      · obtain ⟨n, c, hev⟩ := compEntry_events_shape e ev h
        subst hev; rfl
      · exact ih ev h
    | error err =>
      rw [hc] at h
      simp at h
      obtain ⟨n, c, hev⟩ := compEntry_events_shape e ev h
      subst hev; rfl

theorem compLoop_names (tr : List StepExecution) :
    ∀ ev ∈ (compLoop tr).1, ∀ n, eventName ev = some n →
      ∃ s ∈ traceSteps tr, s.name = n := by
  induction tr with
  | nil => intro ev h; simp [compLoop] at h
  | cons e rest ih =>
    intro ev h n hn
    simp only [compLoop] at h
    have inEntry : ev ∈ (compEntry e).1 →
        ∃ s ∈ traceSteps (e :: rest), s.name = n := by
      intro hm
      obtain ⟨s, hs, hsn⟩ := compEntry_names e ev hm n hn
      refine ⟨s, ?_, hsn⟩
      unfold traceSteps
      simp only [List.flatMap_cons, List.mem_append]
      exact Or.inl hs
    cases hc : (compEntry e).2 with
    | ok _ =>
      rw [hc] at h
      simp at h
      rcases h with h | h
      · exact inEntry h
      · obtain ⟨s, hs, hsn⟩ := ih ev h n hn
        refine ⟨s, ?_, hsn⟩
        unfold traceSteps at hs ⊢
        simp only [List.flatMap_cons, List.mem_append]
        exact Or.inr hs
    | error err =>
      rw [hc] at h
      simp at h
      exact inEntry h

/-- The events of compensate: the loop events followed by the hook event
when a hook is registered. -/
theorem compensate_events (saga : Saga) (tr : List StepExecution) (ctx : Ctx) :
    (compensate saga tr ctx).1 =
      (compLoop tr.reverse).1 ++
        (match saga.lastCompensate with
         | none => []
         | some _ => [.globalCompCall ctx]) := by
  cases h : saga.lastCompensate with
  | none => simp [compensate, h]
  | some f => simp [compensate, h]

/-- compensate only rejects through the global hook: without a hook, or
with a hook that succeeds on the accumulated context, it resolves even
when per-step compensations throw. -/
theorem compensate_resolves (saga : Saga) (tr : List StepExecution)
    (ctx : Ctx)
    (hhook : ∀ f, saga.lastCompensate = some f → f ctx = .ok ()) :
    (compensate saga tr ctx).2 = .ok () := by
  cases h : saga.lastCompensate with
  | none => simp [compensate, h]
  | some f => simp [compensate, h, hhook f h]

theorem compensate_compCalls (saga : Saga) (tr : List StepExecution)
    (ctx : Ctx) (h : ∀ e ∈ tr, (compEntry e).2 = .ok ()) :
    compCalls (compensate saga tr ctx).1 = traceCompPairs tr := by
  rw [compensate_events]
  rw [compCalls_append]
  have hrev : ∀ e ∈ tr.reverse, (compEntry e).2 = .ok () := by
    intro e he; exact h e (List.mem_reverse.mp he)
  rw [compLoop_all_ok tr.reverse hrev]
  have hflat : compCalls (tr.reverse.flatMap (fun e => (compEntry e).1)) =
      traceCompPairs tr := by
    unfold traceCompPairs
    induction tr.reverse with
    | nil => simp [compCalls]
    | cons e rest ih =>
      simp only [List.flatMap_cons]
      rw [compCalls_append, ih, compCalls_compEntry]
  rw [hflat]
  cases hl : saga.lastCompensate with
  | none => simp [compCalls]
  | some f => simp [compCalls]

/-
Case equations for the execute loop.
-/

theorem execGo_nil (saga : Saga) (ctx : Ctx) (tr : List StepExecution) :
    execGo saga [] ctx tr = ([], tr, .ok ctx) := rfl

theorem execGo_single_skip (saga : Saga) (s : Step)
    (rest : List SagaStep) (ctx : Ctx) (tr : List StepExecution)
    (h : s.skip = true) :
    execGo saga (.single s :: rest) ctx tr = execGo saga rest ctx tr := by
  simp [execGo, h]

theorem execGo_single_ok (saga : Saga) (s : Step) (rest : List SagaStep)
    (ctx : Ctx) (tr : List StepExecution) (v : JsValue)
    (hskip : s.skip = false)
    (hr : (executeStepWithRetry s ctx (s.maxReruns.getD 0)).2 = .ok v) :
    execGo saga (.single s :: rest) ctx tr =
      ((executeStepWithRetry s ctx (s.maxReruns.getD 0)).1 ++
         (execGo saga rest (mergeResult ctx v) (tr ++ [.single s ctx])).1,
       (execGo saga rest (mergeResult ctx v) (tr ++ [.single s ctx])).2) := by
  simp only [execGo, hskip, Bool.false_eq_true, if_false, hr]

theorem execGo_single_err (saga : Saga) (s : Step) (rest : List SagaStep)
    (ctx : Ctx) (tr : List StepExecution) (e : Err)
    (hskip : s.skip = false)
    (hr : (executeStepWithRetry s ctx (s.maxReruns.getD 0)).2 = .error e) :
    execGo saga (.single s :: rest) ctx tr =
      ((executeStepWithRetry s ctx (s.maxReruns.getD 0)).1 ++
         (compensate saga tr ctx).1, tr,
       match (compensate saga tr ctx).2 with
       | .ok _ => .error e
       | .error he => .error he) := by
  simp only [execGo, hskip, Bool.false_eq_true, if_false, hr]

theorem execGo_par_empty (saga : Saga) (ss : List Step)
    (rest : List SagaStep) (ctx : Ctx) (tr : List StepExecution)
    (h : activeOf ss = []) :
    execGo saga (.par ss :: rest) ctx tr = execGo saga rest ctx tr := by
  simp [execGo, h]

theorem execGo_par_err (saga : Saga) (ss : List Step)
    (rest : List SagaStep) (ctx : Ctx) (tr : List StepExecution) (e : Err)
    (hne : ¬ activeOf ss = [])
    (he : firstError ((stageRuns ctx (activeOf ss)).map (fun r => r.2)) =
      some e) :
    execGo saga (.par ss :: rest) ctx tr =
      ((stageRuns ctx (activeOf ss)).flatMap (fun r => r.1) ++
         (compensate saga tr ctx).1, tr,
       match (compensate saga tr ctx).2 with
       | .ok _ => .error e
       | .error he => .error he) := by
  simp only [execGo, he]
  rw [if_neg (by simp [List.isEmpty_iff, hne])]

theorem execGo_par_ok (saga : Saga) (ss : List Step)
    (rest : List SagaStep) (ctx : Ctx) (tr : List StepExecution)
    (hne : ¬ activeOf ss = [])
    (hn : firstError ((stageRuns ctx (activeOf ss)).map (fun r => r.2)) =
      none) :
    execGo saga (.par ss :: rest) ctx tr =
      ((stageRuns ctx (activeOf ss)).flatMap (fun r => r.1) ++
         (execGo saga rest
           (mergeAll ctx ((stageRuns ctx (activeOf ss)).map (fun r => r.2)))
           (tr ++ [.par (activeOf ss) ((activeOf ss).map (fun _ => ctx))])).1,
       (execGo saga rest
         (mergeAll ctx ((stageRuns ctx (activeOf ss)).map (fun r => r.2)))
         (tr ++ [.par (activeOf ss) ((activeOf ss).map (fun _ => ctx))])).2) := by
  simp only [execGo, hn]
  rw [if_neg (by simp [List.isEmpty_iff, hne])]

/-
Event-shape helpers.
-/

theorem retry_events_not_comp (s : Step) (c : Ctx) (m : Nat) :
    ∀ ev ∈ (executeStepWithRetry s c m).1, isCompEvent ev = false := by
  intro ev h
  obtain ⟨a, hev⟩ := retryLoop_events_shape s c (m + 1) 0 "" ev h
  subst hev
  rfl

theorem stageRuns_events_not_comp (ctx : Ctx) (ss : List Step) :
    ∀ ev ∈ (stageRuns ctx ss).flatMap (fun r => r.1),
      isCompEvent ev = false := by
  intro ev h
  simp only [stageRuns, List.mem_flatMap, List.mem_map] at h
  obtain ⟨r, ⟨s, hs, hr⟩, hev⟩ := h
  subst hr
  exact retry_events_not_comp s ctx (s.maxReruns.getD 0) ev hev

theorem compCalls_nil_of_not_comp (l : List Event)
    (h : ∀ ev ∈ l, isCompEvent ev = false) : compCalls l = [] := by
  induction l with
  | nil => rfl
  | cons ev rest ih =>
    have hev := h ev (by simp)
    have : compCalls (ev :: rest) = compCalls [ev] ++ compCalls rest := by
      simpa using compCalls_append [ev] rest
    rw [this, ih (fun x hx => h x (by simp [hx]))]
    cases ev with
    | actionCall n a c => simp [compCalls]
    | compCall n c => simp [isCompEvent] at hev
    | globalCompCall c => simp [isCompEvent] at hev

theorem retry_event_names (s : Step) (c : Ctx) (m : Nat) :
    ∀ ev ∈ (executeStepWithRetry s c m).1, ∀ n, eventName ev = some n →
      n = s.name := by
  intro ev h n hn
  obtain ⟨a, hev⟩ := retryLoop_events_shape s c (m + 1) 0 "" ev h
  subst hev
  simp [eventName] at hn
  exact hn.symm

/-
The success path of the execute loop performs no compensation.
-/

theorem execGo_success_no_comp (saga : Saga) :
    ∀ (stages : List SagaStep) (ctx : Ctx) (tr : List StepExecution)
      (c : Ctx), (execGo saga stages ctx tr).2.2 = .ok c →
      ∀ ev ∈ (execGo saga stages ctx tr).1, isCompEvent ev = false := by
  intro stages
  induction stages with
  | nil => intro ctx tr c h ev hev; rw [execGo_nil] at hev; simp at hev
  | cons stage rest ih =>
    intro ctx tr c h ev hev
    cases stage with
    | single s =>
      cases hskip : s.skip with
      | true =>
        rw [execGo_single_skip saga s rest ctx tr hskip] at h hev
        exact ih ctx tr c h ev hev
      | false =>
        cases hr : (executeStepWithRetry s ctx (s.maxReruns.getD 0)).2 with
        | ok v =>
          rw [execGo_single_ok saga s rest ctx tr v hskip hr] at h hev
          simp only [List.mem_append] at hev
          rcases hev with hev | hev
          · exact retry_events_not_comp s ctx (s.maxReruns.getD 0) ev hev
          · exact ih _ _ c h ev hev
        | error e =>
          rw [execGo_single_err saga s rest ctx tr e hskip hr] at h
          simp only [] at h
          cases hc : (compensate saga tr ctx).2 with
          | ok _ => rw [hc] at h; simp at h
          | error he => rw [hc] at h; simp at h
    | par ss =>
      by_cases hemp : activeOf ss = []
      · rw [execGo_par_empty saga ss rest ctx tr hemp] at h hev
        exact ih ctx tr c h ev hev
      · cases hfe : firstError ((stageRuns ctx (activeOf ss)).map
            (fun r => r.2)) with
        | some e =>
          rw [execGo_par_err saga ss rest ctx tr e hemp hfe] at h
          simp only [] at h
          cases hc : (compensate saga tr ctx).2 with
          | ok _ => rw [hc] at h; simp at h
          | error he => rw [hc] at h; simp at h
        | none =>
          rw [execGo_par_ok saga ss rest ctx tr hemp hfe] at h hev
          simp only [List.mem_append] at hev
          rcases hev with hev | hev
          · exact stageRuns_events_not_comp ctx (activeOf ss) ev hev
          · exact ih _ _ c h ev hev

/-
Trace membership invariants of the execute loop.
-/

theorem traceSteps_append (a b : List StepExecution) :
    traceSteps (a ++ b) = traceSteps a ++ traceSteps b := by
  simp [traceSteps]

theorem stagesSteps_cons (st : SagaStep) (rest : List SagaStep) :
    stagesSteps (st :: rest) = stageSteps st ++ stagesSteps rest := by
  simp [stagesSteps]

theorem activeOf_mem (ss : List Step) (s : Step) (h : s ∈ activeOf ss) :
    s ∈ ss ∧ s.skip = false := by
  unfold activeOf at h
  rw [List.mem_filter] at h
  exact ⟨h.1, by simpa using h.2⟩

theorem execGo_traceSteps (saga : Saga) :
    ∀ (stages : List SagaStep) (ctx : Ctx) (tr : List StepExecution),
      ∀ s ∈ traceSteps (execGo saga stages ctx tr).2.1,
        s ∈ traceSteps tr ∨ (s ∈ stagesSteps stages ∧ s.skip = false) := by
  intro stages
  induction stages with
  | nil =>
    intro ctx tr s h
    rw [execGo_nil] at h
    exact Or.inl h
  | cons stage rest ih =>
    intro ctx tr s h
    have push : s ∈ stagesSteps rest ∧ s.skip = false →
        s ∈ stagesSteps (stage :: rest) ∧ s.skip = false := by
      intro hs
      rw [stagesSteps_cons]
      exact ⟨List.mem_append.mpr (Or.inr hs.1), hs.2⟩
    cases stage with
    | single s0 =>
      cases hskip : s0.skip with
      | true =>
        rw [execGo_single_skip saga s0 rest ctx tr hskip] at h
        rcases ih ctx tr s h with h' | h'
        · exact Or.inl h'
        · exact Or.inr (push h')
      | false =>
        cases hr : (executeStepWithRetry s0 ctx (s0.maxReruns.getD 0)).2 with
        | ok v =>
          rw [execGo_single_ok saga s0 rest ctx tr v hskip hr] at h
          simp only [] at h
          rcases ih _ _ s h with h' | h'
          · rw [traceSteps_append] at h'
            rcases List.mem_append.mp h' with h2 | h2
            · exact Or.inl h2
            · simp [traceSteps, entrySteps] at h2
              subst h2
              refine Or.inr ⟨?_, hskip⟩
              rw [stagesSteps_cons]
              exact List.mem_append.mpr (Or.inl (by simp [stageSteps]))
          · exact Or.inr (push h')
        | error e =>
          rw [execGo_single_err saga s0 rest ctx tr e hskip hr] at h
          exact Or.inl h
    | par ss =>
      by_cases hemp : activeOf ss = []
      · rw [execGo_par_empty saga ss rest ctx tr hemp] at h
        rcases ih ctx tr s h with h' | h'
        · exact Or.inl h'
        · exact Or.inr (push h')
      · cases hfe : firstError ((stageRuns ctx (activeOf ss)).map
            (fun r => r.2)) with
        | some e =>
          rw [execGo_par_err saga ss rest ctx tr e hemp hfe] at h
          exact Or.inl h
        | none =>
          rw [execGo_par_ok saga ss rest ctx tr hemp hfe] at h
          simp only [] at h
          rcases ih _ _ s h with h' | h'
          · rw [traceSteps_append] at h'
            rcases List.mem_append.mp h' with h2 | h2
            · exact Or.inl h2
            · simp [traceSteps, entrySteps] at h2
              obtain ⟨hmem, hskip⟩ := activeOf_mem ss s h2
              refine Or.inr ⟨?_, hskip⟩
              rw [stagesSteps_cons]
              exact List.mem_append.mpr (Or.inl (by simp [stageSteps, hmem]))
          · exact Or.inr (push h')

theorem execGo_trace_entries (saga : Saga) :
    ∀ (stages : List SagaStep) (ctx : Ctx) (tr : List StepExecution),
      ∀ en ∈ (execGo saga stages ctx tr).2.1,
        en ∈ tr ∨ ∀ p ∈ entryZip en,
          p.1 ∈ stagesSteps stages ∧ p.1.skip = false := by
  intro stages
  induction stages with
  | nil =>
    intro ctx tr en h
    rw [execGo_nil] at h
    exact Or.inl h
  | cons stage rest ih =>
    intro ctx tr en h
    have push : (∀ p ∈ entryZip en,
          p.1 ∈ stagesSteps rest ∧ p.1.skip = false) →
        ∀ p ∈ entryZip en,
          p.1 ∈ stagesSteps (stage :: rest) ∧ p.1.skip = false := by
      intro hp p hmem
      rw [stagesSteps_cons]
      exact ⟨List.mem_append.mpr (Or.inr (hp p hmem).1), (hp p hmem).2⟩
    cases stage with
    | single s0 =>
      cases hskip : s0.skip with
      | true =>
        rw [execGo_single_skip saga s0 rest ctx tr hskip] at h
        rcases ih ctx tr en h with h' | h'
        · exact Or.inl h'
        · exact Or.inr (push h')
      | false =>
        cases hr : (executeStepWithRetry s0 ctx (s0.maxReruns.getD 0)).2 with
        | ok v =>
          rw [execGo_single_ok saga s0 rest ctx tr v hskip hr] at h
          simp only [] at h
          rcases ih _ _ en h with h' | h'
          · rcases List.mem_append.mp h' with h2 | h2
            · exact Or.inl h2
            · simp at h2
              subst h2
              refine Or.inr ?_
              intro p hp
              simp [entryZip] at hp
              subst hp
              rw [stagesSteps_cons]
              exact ⟨List.mem_append.mpr (Or.inl (by simp [stageSteps])), hskip⟩
          · exact Or.inr (push h')
        | error e =>
          rw [execGo_single_err saga s0 rest ctx tr e hskip hr] at h
          exact Or.inl h
    | par ss =>
      by_cases hemp : activeOf ss = []
      · rw [execGo_par_empty saga ss rest ctx tr hemp] at h
        rcases ih ctx tr en h with h' | h'
        · exact Or.inl h'
        · exact Or.inr (push h')
      · cases hfe : firstError ((stageRuns ctx (activeOf ss)).map
            (fun r => r.2)) with
        | some e =>
          rw [execGo_par_err saga ss rest ctx tr e hemp hfe] at h
          exact Or.inl h
        | none =>
          rw [execGo_par_ok saga ss rest ctx tr hemp hfe] at h
          simp only [] at h
          rcases ih _ _ en h with h' | h'
          · rcases List.mem_append.mp h' with h2 | h2
            · exact Or.inl h2
            · simp at h2
              subst h2
              refine Or.inr ?_
              intro p hp
              simp only [entryZip] at hp
              have hpa : p.1 ∈ activeOf ss := List.of_mem_zip hp |>.1
              obtain ⟨hmem, hskip⟩ := activeOf_mem ss p.1 hpa
              rw [stagesSteps_cons]
              exact ⟨List.mem_append.mpr (Or.inl (by simp [stageSteps, hmem])),
                hskip⟩
          · exact Or.inr (push h')

/-
Failure-path decomposition of the execute loop.
-/

theorem execGo_fail_events (saga : Saga) :
    ∀ (stages : List SagaStep) (ctx : Ctx) (tr : List StepExecution)
      (e : Err), (execGo saga stages ctx tr).2.2 = .error e →
      ∃ aevs cf,
        (execGo saga stages ctx tr).1 =
          aevs ++ (compensate saga (execGo saga stages ctx tr).2.1 cf).1 ∧
        (∀ ev ∈ aevs, isCompEvent ev = false) := by
  intro stages
  induction stages with
  | nil =>
    intro ctx tr e h
    rw [execGo_nil] at h
    simp at h
  | cons stage rest ih =>
    intro ctx tr e h
    cases stage with
    | single s0 =>
      cases hskip : s0.skip with
      | true =>
        rw [execGo_single_skip saga s0 rest ctx tr hskip] at h ⊢
        exact ih ctx tr e h
      | false =>
        cases hr : (executeStepWithRetry s0 ctx (s0.maxReruns.getD 0)).2 with
        | ok v =>
          rw [execGo_single_ok saga s0 rest ctx tr v hskip hr] at h ⊢
          simp only [] at h ⊢
          obtain ⟨aevs, cf, heq, hna⟩ := ih _ _ e h
          refine ⟨(executeStepWithRetry s0 ctx (s0.maxReruns.getD 0)).1 ++ aevs,
            cf, ?_, ?_⟩
          · rw [heq, List.append_assoc]
          · intro ev hev
            rcases List.mem_append.mp hev with hev | hev
            · exact retry_events_not_comp s0 ctx (s0.maxReruns.getD 0) ev hev
            · exact hna ev hev
        | error e2 =>
          rw [execGo_single_err saga s0 rest ctx tr e2 hskip hr] at h ⊢
          simp only [] at h ⊢
          exact ⟨(executeStepWithRetry s0 ctx (s0.maxReruns.getD 0)).1, ctx,
            rfl, retry_events_not_comp s0 ctx (s0.maxReruns.getD 0)⟩
    | par ss =>
      by_cases hemp : activeOf ss = []
      · rw [execGo_par_empty saga ss rest ctx tr hemp] at h ⊢
        exact ih ctx tr e h
      · cases hfe : firstError ((stageRuns ctx (activeOf ss)).map
            (fun r => r.2)) with
        | some e2 =>
          rw [execGo_par_err saga ss rest ctx tr e2 hemp hfe] at h ⊢
          simp only [] at h ⊢
          exact ⟨(stageRuns ctx (activeOf ss)).flatMap (fun r => r.1), ctx,
            rfl, stageRuns_events_not_comp ctx (activeOf ss)⟩
        | none =>
          rw [execGo_par_ok saga ss rest ctx tr hemp hfe] at h ⊢
          simp only [] at h ⊢
          obtain ⟨aevs, cf, heq, hna⟩ := ih _ _ e h
          refine ⟨(stageRuns ctx (activeOf ss)).flatMap (fun r => r.1) ++ aevs,
            cf, ?_, ?_⟩
          · rw [heq, List.append_assoc]
          · intro ev hev
            rcases List.mem_append.mp hev with hev | hev
            · exact stageRuns_events_not_comp ctx (activeOf ss) ev hev
            · exact hna ev hev

theorem firstError_some (rs : List (Except Err JsValue)) (e : Err)
    (h : firstError rs = some e) : Except.error e ∈ rs := by
  unfold firstError at h
  rw [List.findSome?_eq_some_iff] at h
  obtain ⟨l1, r, l2, hsplit, hr, _⟩ := h
  cases r with
  | ok v => simp at hr
  | error e2 =>
    simp at hr
    subst hr
    rw [hsplit]
    simp

theorem execGo_fail_err (saga : Saga)
    (hhook : ∀ f, saga.lastCompensate = some f → ∀ c, f c = .ok ()) :
    ∀ (stages : List SagaStep) (ctx : Ctx) (tr : List StepExecution)
      (e : Err), (execGo saga stages ctx tr).2.2 = .error e →
      ∃ s, s ∈ stagesSteps stages ∧ s.skip = false ∧
        ∃ c, retryRes s c = .error e := by
  intro stages
  induction stages with
  | nil =>
    intro ctx tr e h
    rw [execGo_nil] at h
    simp at h
  | cons stage rest ih =>
    intro ctx tr e h
    have push : (∃ s, s ∈ stagesSteps rest ∧ s.skip = false ∧
          ∃ c, retryRes s c = .error e) →
        ∃ s, s ∈ stagesSteps (stage :: rest) ∧ s.skip = false ∧
          ∃ c, retryRes s c = .error e := by
      rintro ⟨s, hs, hskip, c, hc⟩
      refine ⟨s, ?_, hskip, c, hc⟩
      rw [stagesSteps_cons]
      exact List.mem_append.mpr (Or.inr hs)
    have hcomp : ∀ c2, (compensate saga tr c2).2 = .ok () := fun c2 =>
      compensate_resolves saga tr c2 (fun f hf => hhook f hf c2)
    cases stage with
    | single s0 =>
      cases hskip : s0.skip with
      | true =>
        rw [execGo_single_skip saga s0 rest ctx tr hskip] at h
        exact push (ih ctx tr e h)
      | false =>
        cases hr : (executeStepWithRetry s0 ctx (s0.maxReruns.getD 0)).2 with
        | ok v =>
          rw [execGo_single_ok saga s0 rest ctx tr v hskip hr] at h
          simp only [] at h
          exact push (ih _ _ e h)
        | error e2 =>
          rw [execGo_single_err saga s0 rest ctx tr e2 hskip hr] at h
          simp only [hcomp ctx] at h
          simp at h
          subst h
          refine ⟨s0, ?_, hskip, ctx, hr⟩
          rw [stagesSteps_cons]
          exact List.mem_append.mpr (Or.inl (by simp [stageSteps]))
    | par ss =>
      by_cases hemp : activeOf ss = []
      · rw [execGo_par_empty saga ss rest ctx tr hemp] at h
        exact push (ih ctx tr e h)
      · cases hfe : firstError ((stageRuns ctx (activeOf ss)).map
            (fun r => r.2)) with
        | some e2 =>
          rw [execGo_par_err saga ss rest ctx tr e2 hemp hfe] at h
          simp only [hcomp ctx] at h
          simp at h
          subst h
          have hmem := firstError_some _ _ hfe
          simp only [stageRuns, List.map_map, List.mem_map] at hmem
          obtain ⟨s, hs, hsr⟩ := hmem
          obtain ⟨hin, hskip⟩ := activeOf_mem ss s hs
          refine ⟨s, ?_, hskip, ctx, hsr⟩
          rw [stagesSteps_cons]
          exact List.mem_append.mpr (Or.inl (by simp [stageSteps, hin]))
        | none =>
          rw [execGo_par_ok saga ss rest ctx tr hemp hfe] at h
          simp only [] at h
          exact push (ih _ _ e h)

/-
Derived failure-path facts: the hook fires, and the compensation calls
are the reverse trace.
-/

theorem traceSteps_reverse (tr : List StepExecution) (s : Step) :
    s ∈ traceSteps tr.reverse ↔ s ∈ traceSteps tr := by
  unfold traceSteps
  simp [List.mem_flatMap]

theorem execGo_fail_hook (saga : Saga) (f : Ctx → Except Err Unit)
    (hf : saga.lastCompensate = some f) (stages : List SagaStep)
    (ctx : Ctx) (tr : List StepExecution) (e : Err)
    (h : (execGo saga stages ctx tr).2.2 = .error e) :
    ∃ c, Event.globalCompCall c ∈ (execGo saga stages ctx tr).1 := by
  obtain ⟨aevs, cf, heq, _⟩ := execGo_fail_events saga stages ctx tr e h
  refine ⟨cf, ?_⟩
  rw [heq]
  rw [List.mem_append]
  right
  rw [compensate_events, hf]
  simp

/-- On a failed run whose compensate functions all succeed, the
compensation calls performed are exactly the reverse-order pairs of the
final trace. -/
theorem execGo_fail_compCalls (saga : Saga) (stages : List SagaStep)
    (ctx : Ctx) (tr : List StepExecution) (e : Err)
    (hcomp : ∀ s, (s ∈ stagesSteps stages ∨ s ∈ traceSteps tr) →
      ∀ c, s.compensate c = .ok ())
    (h : (execGo saga stages ctx tr).2.2 = .error e) :
    compCalls (execGo saga stages ctx tr).1 =
      traceCompPairs (execGo saga stages ctx tr).2.1 := by
  obtain ⟨aevs, cf, heq, hna⟩ := execGo_fail_events saga stages ctx tr e h
  rw [heq, compCalls_append, compCalls_nil_of_not_comp aevs hna]
  rw [List.nil_append]
  apply compensate_compCalls
  intro en hen
  apply compEntry_ok
  intro p hp
  have hstep : p.1 ∈ entrySteps en := by
    cases en with
    | single s c => simp [entryZip] at hp; simp [entrySteps, hp]
    | par ss cs =>
      simp only [entryZip] at hp
      simp [entrySteps]
      exact List.of_mem_zip hp |>.1
  rcases execGo_trace_entries saga stages ctx tr en hen with hin | hnew
  · have : p.1 ∈ traceSteps tr := by
      unfold traceSteps
      rw [List.mem_flatMap]
      exact ⟨en, hin, hstep⟩
    exact hcomp p.1 (Or.inr this) p.2
  · exact hcomp p.1 (Or.inl (hnew p hp).1) p.2

/-- Every named event of a run is named after a dispatched (non-skipped)
step of the stages, or after a step already present in the initial
trace. -/
theorem execGo_names (saga : Saga) :
    ∀ (stages : List SagaStep) (ctx : Ctx) (tr : List StepExecution),
      ∀ ev ∈ (execGo saga stages ctx tr).1, ∀ n, eventName ev = some n →
        (∃ s, s ∈ stagesSteps stages ∧ s.skip = false ∧ s.name = n) ∨
        (∃ s, s ∈ traceSteps tr ∧ s.name = n) := by
  intro stages
  induction stages with
  | nil =>
    intro ctx tr ev hev
    rw [execGo_nil] at hev
    simp at hev
  | cons stage rest ih =>
    intro ctx tr ev hev n hn
    have push : (∃ s, s ∈ stagesSteps rest ∧ s.skip = false ∧ s.name = n) →
        ∃ s, s ∈ stagesSteps (stage :: rest) ∧ s.skip = false ∧
          s.name = n := by
      rintro ⟨s, hs, h1, h2⟩
      exact ⟨s, by rw [stagesSteps_cons]; exact List.mem_append.mpr (Or.inr hs),
        h1, h2⟩
    have compCase : ∀ (cf : Ctx),
        ev ∈ (compensate saga tr cf).1 →
        (∃ s, s ∈ stagesSteps (stage :: rest) ∧ s.skip = false ∧
          s.name = n) ∨ (∃ s, s ∈ traceSteps tr ∧ s.name = n) := by
      intro cf hm
      rw [compensate_events] at hm
      rcases List.mem_append.mp hm with hm | hm
      · obtain ⟨s, hs, hsn⟩ := compLoop_names tr.reverse ev hm n hn
        right
        exact ⟨s, (traceSteps_reverse tr s).mp hs, hsn⟩
      · cases hl : saga.lastCompensate with
        | none => rw [hl] at hm; simp at hm
        | some f =>
          rw [hl] at hm
          simp at hm
          subst hm
          simp [eventName] at hn
    cases stage with
    | single s0 =>
      cases hskip : s0.skip with
      | true =>
        rw [execGo_single_skip saga s0 rest ctx tr hskip] at hev
        rcases ih ctx tr ev hev n hn with h' | h'
        · exact Or.inl (push h')
        · exact Or.inr h'
      | false =>
        have hereCase : ev ∈ (executeStepWithRetry s0 ctx
            (s0.maxReruns.getD 0)).1 →
            (∃ s, s ∈ stagesSteps (SagaStep.single s0 :: rest) ∧
              s.skip = false ∧ s.name = n) ∨
            (∃ s, s ∈ traceSteps tr ∧ s.name = n) := by
          intro hm
          left
          refine ⟨s0, ?_⟩
          have := retry_event_names s0 ctx (s0.maxReruns.getD 0) ev hm n hn
          refine ⟨?_, hskip, this.symm⟩
          rw [stagesSteps_cons]
          exact List.mem_append.mpr (Or.inl (by simp [stageSteps]))
        cases hr : (executeStepWithRetry s0 ctx (s0.maxReruns.getD 0)).2 with
        | ok v =>
          rw [execGo_single_ok saga s0 rest ctx tr v hskip hr] at hev
          simp only [List.mem_append] at hev
          rcases hev with hev | hev
          · exact hereCase hev
          · rcases ih _ _ ev hev n hn with h' | h'
            · exact Or.inl (push h')
            · obtain ⟨s, hs, hsn⟩ := h'
              rw [traceSteps_append] at hs
              rcases List.mem_append.mp hs with hs | hs
              · exact Or.inr ⟨s, hs, hsn⟩
              · simp [traceSteps, entrySteps] at hs
                subst hs
                left
                refine ⟨s, ?_, hskip, hsn⟩
                rw [stagesSteps_cons]
                exact List.mem_append.mpr (Or.inl (by simp [stageSteps]))
        | error e =>
          rw [execGo_single_err saga s0 rest ctx tr e hskip hr] at hev
          simp only [List.mem_append] at hev
          rcases hev with hev | hev
          · exact hereCase hev
          · exact compCase ctx hev
    | par ss =>
      by_cases hemp : activeOf ss = []
      · rw [execGo_par_empty saga ss rest ctx tr hemp] at hev
        rcases ih ctx tr ev hev n hn with h' | h'
        · exact Or.inl (push h')
        · exact Or.inr h'
      · have hereCase : ev ∈ (stageRuns ctx (activeOf ss)).flatMap
            (fun r => r.1) →
            (∃ s, s ∈ stagesSteps (SagaStep.par ss :: rest) ∧
              s.skip = false ∧ s.name = n) ∨
            (∃ s, s ∈ traceSteps tr ∧ s.name = n) := by
          intro hm
          simp only [stageRuns, List.mem_flatMap, List.mem_map] at hm
          obtain ⟨r, ⟨s, hs, hrr⟩, hmm⟩ := hm
          subst hrr
          have := retry_event_names s ctx (s.maxReruns.getD 0) ev hmm n hn
          obtain ⟨hin, hsk⟩ := activeOf_mem ss s hs
          left
          refine ⟨s, ?_, hsk, this.symm⟩
          rw [stagesSteps_cons]
          exact List.mem_append.mpr (Or.inl (by simp [stageSteps, hin]))
        cases hfe : firstError ((stageRuns ctx (activeOf ss)).map
            (fun r => r.2)) with
        | some e =>
          rw [execGo_par_err saga ss rest ctx tr e hemp hfe] at hev
          simp only [List.mem_append] at hev
          rcases hev with hev | hev
          · exact hereCase hev
          · exact compCase ctx hev
        | none =>
          rw [execGo_par_ok saga ss rest ctx tr hemp hfe] at hev
          simp only [List.mem_append] at hev
          rcases hev with hev | hev
          · exact hereCase hev
          · rcases ih _ _ ev hev n hn with h' | h'
            · exact Or.inl (push h')
            · obtain ⟨s, hs, hsn⟩ := h'
              rw [traceSteps_append] at hs
              rcases List.mem_append.mp hs with hs | hs
              · exact Or.inr ⟨s, hs, hsn⟩
              · simp [traceSteps, entrySteps] at hs
                obtain ⟨hin, hsk⟩ := activeOf_mem ss s hs
                left
                refine ⟨s, ?_, hsk, hsn⟩
                rw [stagesSteps_cons]
                exact List.mem_append.mpr (Or.inl (by simp [stageSteps, hin]))

/-
Success-path refinement: the final context as the sequential merge the
spec describes.
-/

/-- Follows the wording of the spec, as the refinement target for the
merge claim: the final context is the initial context sequentially
merged with every step returned partial-context object in stage
declaration order; within a parallel stage each step receives the
pre-stage context and the results are merged in declaration order, the
last declared step winning on key collisions.  (With no failures a step
result is its action on the first attempt.) -/
def specStageMerge (ctx : Ctx) : SagaStep → Ctx
  | .single s =>
    match s.action ctx 0 with
    | .ok v => mergeResult ctx v
    | .error _ => ctx
  | .par ss =>
    ss.foldl (fun acc s =>
      match s.action ctx 0 with
      | .ok v => mergeResult acc v
      | .error _ => acc) ctx

/-- Follows the wording of the spec: the sequential merge over all
stages. -/
def specFinalContext (saga : Saga) (init : Ctx) : Ctx :=
  saga.steps.foldl specStageMerge init

theorem executeStepWithRetry_firstOk (s : Step) (c : Ctx) (m : Nat)
    (v : JsValue) (h : s.action c 0 = .ok v) :
    executeStepWithRetry s c m = ([.actionCall s.name 0 c], .ok v) := by
  unfold executeStepWithRetry
  simp [retryLoop, h]

theorem firstError_none_of_ok (rs : List (Except Err JsValue))
    (h : ∀ r ∈ rs, ∃ v, r = .ok v) : firstError rs = none := by
  unfold firstError
  induction rs with
  | nil => simp
  | cons r rest ih =>
    obtain ⟨v, hv⟩ := h r (by simp)
    subst hv
    simp only [List.findSome?_cons]
    exact ih (fun q hq => h q (by simp [hq]))

theorem activeOf_all (ss : List Step) (h : ∀ s ∈ ss, s.skip = false) :
    activeOf ss = ss := by
  unfold activeOf
  apply List.filter_eq_self.mpr
  intro s hs
  simp [h s hs]

theorem mergeAll_stageRuns (ctx : Ctx) :
    ∀ (ss : List Step) (acc : Ctx),
      (∀ s ∈ ss, ∃ v, s.action ctx 0 = .ok v) →
      mergeAll acc ((stageRuns ctx ss).map (fun r => r.2)) =
        ss.foldl (fun a s =>
          match s.action ctx 0 with
          | .ok v => mergeResult a v
          | .error _ => a) acc := by
  intro ss
  induction ss with
  | nil => intro acc _; rfl
  | cons s rest ih =>
    intro acc h
    obtain ⟨v, hv⟩ := h s (by simp)
    have hrun := executeStepWithRetry_firstOk s ctx (s.maxReruns.getD 0) v hv
    simp only [stageRuns, List.map_cons, mergeAll, List.foldl_cons, hrun, hv]
    exact ih (mergeResult acc v) (fun q hq => h q (by simp [hq]))

/-- With no skipped steps and no failing actions, the execute loop
resolves to exactly the sequential merge the spec describes. -/
theorem execGo_spec_merge (saga : Saga) :
    ∀ (stages : List SagaStep) (ctx : Ctx) (tr : List StepExecution),
      (∀ s ∈ stagesSteps stages, s.skip = false) →
      (∀ s ∈ stagesSteps stages, ∀ c, ∃ v, s.action c 0 = .ok v) →
      (execGo saga stages ctx tr).2.2 =
        .ok (stages.foldl specStageMerge ctx) := by
  intro stages
  induction stages with
  | nil => intro ctx tr _ _; rw [execGo_nil]; rfl
  | cons stage rest ih =>
    intro ctx tr hns hok
    have hnsr : ∀ s ∈ stagesSteps rest, s.skip = false := by
      intro s hs
      exact hns s (by rw [stagesSteps_cons]; exact List.mem_append.mpr (Or.inr hs))
    have hokr : ∀ s ∈ stagesSteps rest, ∀ c, ∃ v, s.action c 0 = .ok v := by
      intro s hs
      exact hok s (by rw [stagesSteps_cons]; exact List.mem_append.mpr (Or.inr hs))
    cases stage with
    | single s0 =>
      have hmem : s0 ∈ stagesSteps (SagaStep.single s0 :: rest) := by
        rw [stagesSteps_cons]
        exact List.mem_append.mpr (Or.inl (by simp [stageSteps]))
      have hskip := hns s0 hmem
      obtain ⟨v, hv⟩ := hok s0 hmem ctx
      have hrun := executeStepWithRetry_firstOk s0 ctx (s0.maxReruns.getD 0) v hv
      rw [execGo_single_ok saga s0 rest ctx tr v hskip (by rw [hrun])]
      simp only [List.foldl_cons]
      have hsp : specStageMerge ctx (SagaStep.single s0) = mergeResult ctx v := by
        simp [specStageMerge, hv]
      rw [hsp]
      exact ih (mergeResult ctx v) (tr ++ [.single s0 ctx]) hnsr hokr
    | par ss =>
      have hssmem : ∀ s ∈ ss, s ∈ stagesSteps (SagaStep.par ss :: rest) := by
        intro s hs
        rw [stagesSteps_cons]
        exact List.mem_append.mpr (Or.inl (by simp [stageSteps, hs]))
      have hact : activeOf ss = ss :=
        activeOf_all ss (fun s hs => hns s (hssmem s hs))
      by_cases hemp : activeOf ss = []
      · rw [execGo_par_empty saga ss rest ctx tr hemp]
        have hssnil : ss = [] := by rw [← hact]; exact hemp
        subst hssnil
        simp only [List.foldl_cons]
        have hpe : specStageMerge ctx (SagaStep.par []) = ctx := by
          simp [specStageMerge]
        rw [hpe]
        exact ih ctx tr hnsr hokr
      · have hfe : firstError ((stageRuns ctx (activeOf ss)).map
            (fun r => r.2)) = none := by
          apply firstError_none_of_ok
          intro r hr
          simp only [stageRuns, List.map_map, List.mem_map] at hr
          obtain ⟨s, hs, hrr⟩ := hr
          rw [hact] at hs
          obtain ⟨v, hv⟩ := hok s (hssmem s hs) ctx
          refine ⟨v, ?_⟩
          rw [← hrr]
          simp [executeStepWithRetry_firstOk s ctx (s.maxReruns.getD 0) v hv]
        rw [execGo_par_ok saga ss rest ctx tr hemp hfe]
        simp only [List.foldl_cons]
        have hmerge : mergeAll ctx ((stageRuns ctx (activeOf ss)).map
            (fun r => r.2)) = specStageMerge ctx (SagaStep.par ss) := by
          rw [hact]
          rw [mergeAll_stageRuns ctx ss ctx
            (fun s hs => hok s (hssmem s hs) ctx)]
          rfl
        rw [hmerge]
        exact ih _ _ hnsr hokr

/-
Congruence: the outcome of a run depends on a step only through its
name, skip flag, compensate function and retry-wrapped result.  This is
what makes a step that succeeds on a retry interchangeable with one that
succeeds immediately with the same value.
-/

/-- Observational equivalence of steps: same name, same skip flag, same
compensate function, and the same retry-wrapped result on every
context. -/
def StepSim (s1 s2 : Step) : Prop :=
  s1.name = s2.name ∧ s1.skip = s2.skip ∧ s1.compensate = s2.compensate ∧
  ∀ c, retryRes s1 c = retryRes s2 c

/-- The part of step equivalence that compensation observes. -/
def CompSim (s1 s2 : Step) : Prop :=
  s1.name = s2.name ∧ s1.compensate = s2.compensate

/-- Equivalence of trace entries up to compensation-observable step
data. -/
def EntrySim : StepExecution → StepExecution → Prop
  | .single a ca, .single b cb => CompSim a b ∧ ca = cb
  | .par as2 cas, .par bs cbs => List.Forall₂ CompSim as2 bs ∧ cas = cbs
  | _, _ => False

/-- Equivalence of stages: pointwise step equivalence of the same
shape. -/
def StageSim : SagaStep → SagaStep → Prop
  | .single a, .single b => StepSim a b
  | .par as2, .par bs => List.Forall₂ StepSim as2 bs
  | _, _ => False

theorem zip_compSim :
    ∀ (as2 bs : List Step), List.Forall₂ CompSim as2 bs →
    ∀ (ctxs : List Ctx),
      ((as2.zip ctxs).map (fun p => Event.compCall p.1.name p.2) =
        (bs.zip ctxs).map (fun p => Event.compCall p.1.name p.2)) ∧
      ((as2.zip ctxs).findSome? (fun p =>
          match p.1.compensate p.2 with
          | .error e => some e
          | .ok _ => none) =
        (bs.zip ctxs).findSome? (fun p =>
          match p.1.compensate p.2 with
          | .error e => some e
          | .ok _ => none)) := by
  intro as2 bs h
  induction h with
  | nil => intro ctxs; simp
  | cons hab hrest ih =>
    intro ctxs
    cases ctxs with
    | nil => simp
    | cons c crest =>
      obtain ⟨hn, hc⟩ := hab
      have := ih crest
      refine ⟨?_, ?_⟩
      · simp only [List.zip_cons_cons, List.map_cons, hn, this.1]
      · simp only [List.zip_cons_cons, List.findSome?_cons, hc, this.2]

theorem compEntry_sim (e1 e2 : StepExecution) (h : EntrySim e1 e2) :
    compEntry e1 = compEntry e2 := by
  cases e1 with
  | single a ca =>
    cases e2 with
    | single b cb =>
      obtain ⟨⟨hn, hc⟩, hctx⟩ := h
      simp [compEntry, hn, hc, hctx]
    | par bs cbs => exact absurd h (by simp [EntrySim])
  | par as2 cas =>
    cases e2 with
    | single b cb => exact absurd h (by simp [EntrySim])
    | par bs cbs =>
      obtain ⟨hf, hctx⟩ := h
      subst hctx
      have := zip_compSim as2 bs hf cas
      simp only [compEntry, this.1, this.2]

theorem compLoop_sim :
    ∀ (t1 t2 : List StepExecution), List.Forall₂ EntrySim t1 t2 →
      compLoop t1 = compLoop t2 := by
  intro t1 t2 h
  induction h with
  | nil => rfl
  | cons hab hrest ih =>
    simp only [compLoop, compEntry_sim _ _ hab, ih]

theorem compensate_sim (saga1 saga2 : Saga)
    (hl : saga1.lastCompensate = saga2.lastCompensate)
    (t1 t2 : List StepExecution) (h : List.Forall₂ EntrySim t1 t2)
    (ctx : Ctx) :
    compensate saga1 t1 ctx = compensate saga2 t2 ctx := by
  unfold compensate
  rw [compLoop_sim t1.reverse t2.reverse
    (List.forall₂_reverse_iff.mpr h), hl]

theorem activeOf_sim :
    ∀ (as2 bs : List Step), List.Forall₂ StepSim as2 bs →
      List.Forall₂ StepSim (activeOf as2) (activeOf bs) := by
  intro as2 bs h
  induction h with
  | nil => exact List.Forall₂.nil
  | cons hab hrest ih =>
    rename_i a b l1 l2
    unfold activeOf at ih ⊢
    simp only [List.filter_cons]
    rw [← hab.2.1]
    cases hsk : a.skip with
    | true => simpa using ih
    | false => simpa using List.Forall₂.cons hab ih

theorem forall2_concat {α β : Type} {R : α → β → Prop} :
    ∀ {l1 : List α} {l2 : List β} {a : α} {b : β},
      List.Forall₂ R l1 l2 → R a b →
      List.Forall₂ R (l1 ++ [a]) (l2 ++ [b]) := by
  intro l1 l2 a b h hab
  induction h with
  | nil => simpa using List.Forall₂.cons hab List.Forall₂.nil
  | cons hxy hrest ih => simpa using List.Forall₂.cons hxy ih

theorem map_eq_of_forall2 {α β γ : Type} (f : α → γ) (g : β → γ) :
    ∀ (l1 : List α) (l2 : List β),
      List.Forall₂ (fun a b => f a = g b) l1 l2 → l1.map f = l2.map g := by
  intro l1 l2 h
  induction h with
  | nil => rfl
  | cons hab hrest ih => simp [hab, ih]

theorem stageRuns_res (ctx : Ctx) (ss : List Step) :
    (stageRuns ctx ss).map (fun r => r.2) =
      ss.map (fun s => retryRes s ctx) := by
  simp [stageRuns, retryRes]

/-- The central congruence: two stage lists that are pointwise
equivalent produce the same trace-and-outcome, given equivalent starting
traces and the same hook. -/
theorem execGo_sim (saga1 saga2 : Saga)
    (hl : saga1.lastCompensate = saga2.lastCompensate) :
    ∀ (st1 st2 : List SagaStep), List.Forall₂ StageSim st1 st2 →
    ∀ (ctx : Ctx) (tr1 tr2 : List StepExecution),
      List.Forall₂ EntrySim tr1 tr2 →
      (execGo saga1 st1 ctx tr1).2.2 = (execGo saga2 st2 ctx tr2).2.2 ∧
      List.Forall₂ EntrySim (execGo saga1 st1 ctx tr1).2.1
        (execGo saga2 st2 ctx tr2).2.1 := by
  intro st1 st2 hst
  induction hst with
  | nil =>
    intro ctx tr1 tr2 htr
    rw [execGo_nil, execGo_nil]
    exact ⟨rfl, htr⟩
  | cons hab hrest ih =>
    rename_i g1 g2 l1 l2
    intro ctx tr1 tr2 htr
    cases g1 with
    | single a =>
      cases g2 with
      | par bs => exact absurd hab (by simp [StageSim])
      | single b =>
        obtain ⟨hn, hskipeq, hcomp, hres⟩ := hab
        cases hskip : a.skip with
        | true =>
          rw [execGo_single_skip saga1 a l1 ctx tr1 hskip,
            execGo_single_skip saga2 b l2 ctx tr2 (hskipeq ▸ hskip)]
          exact ih ctx tr1 tr2 htr
        | false =>
          have hskipb : b.skip = false := hskipeq ▸ hskip
          have hresc := hres ctx
          unfold retryRes at hresc
          cases hr : (executeStepWithRetry a ctx (a.maxReruns.getD 0)).2 with
          | ok v =>
            have hrb : (executeStepWithRetry b ctx (b.maxReruns.getD 0)).2 =
                .ok v := by rw [← hresc, hr]
            rw [execGo_single_ok saga1 a l1 ctx tr1 v hskip hr,
              execGo_single_ok saga2 b l2 ctx tr2 v hskipb hrb]
            simp only []
            apply ih
            exact forall2_concat htr ⟨⟨hn, hcomp⟩, rfl⟩
          | error e =>
            have hrb : (executeStepWithRetry b ctx (b.maxReruns.getD 0)).2 =
                .error e := by rw [← hresc, hr]
            rw [execGo_single_err saga1 a l1 ctx tr1 e hskip hr,
              execGo_single_err saga2 b l2 ctx tr2 e hskipb hrb]
            simp only []
            rw [compensate_sim saga1 saga2 hl tr1 tr2 htr ctx]
            exact ⟨rfl, htr⟩
    | par as2 =>
      cases g2 with
      | single b => exact absurd hab (by simp [StageSim])
      | par bs =>
        have hact := activeOf_sim as2 bs hab
        have hlen : (activeOf as2).length = (activeOf bs).length :=
          hact.length_eq
        have hresmap : ((stageRuns ctx (activeOf as2)).map (fun r => r.2)) =
            ((stageRuns ctx (activeOf bs)).map (fun r => r.2)) := by
          rw [stageRuns_res, stageRuns_res]
          exact map_eq_of_forall2 _ _ _ _
            (List.Forall₂.imp (fun a b hr => hr.2.2.2 ctx) hact)
        by_cases hemp : activeOf as2 = []
        · have hempb : activeOf bs = [] := by
            have := hlen
            rw [hemp] at this
            exact List.length_eq_zero.mp this.symm
          rw [execGo_par_empty saga1 as2 l1 ctx tr1 hemp,
            execGo_par_empty saga2 bs l2 ctx tr2 hempb]
          exact ih ctx tr1 tr2 htr
        · have hempb : ¬ activeOf bs = [] := by
            intro hc
            rw [hc] at hlen
            exact hemp (List.length_eq_zero.mp hlen)
          cases hfe : firstError ((stageRuns ctx (activeOf as2)).map
              (fun r => r.2)) with
          | some e =>
            have hfeb : firstError ((stageRuns ctx (activeOf bs)).map
                (fun r => r.2)) = some e := by rw [← hresmap, hfe]
            rw [execGo_par_err saga1 as2 l1 ctx tr1 e hemp hfe,
              execGo_par_err saga2 bs l2 ctx tr2 e hempb hfeb]
            simp only []
            rw [compensate_sim saga1 saga2 hl tr1 tr2 htr ctx]
            exact ⟨rfl, htr⟩
          | none =>
            have hfeb : firstError ((stageRuns ctx (activeOf bs)).map
                (fun r => r.2)) = none := by rw [← hresmap, hfe]
            rw [execGo_par_ok saga1 as2 l1 ctx tr1 hemp hfe,
              execGo_par_ok saga2 bs l2 ctx tr2 hempb hfeb]
            simp only []
            rw [hresmap]
            apply ih
            apply forall2_concat htr
            refine ⟨?_, ?_⟩
            · exact List.Forall₂.imp (fun a b hr => ⟨hr.1, hr.2.2.1⟩) hact
            · have hrepl : ∀ (n : Nat) (l : List Step), l.length = n →
                  l.map (fun _ => ctx) = List.replicate n ctx := by
                intro n l hn
                subst hn
                exact List.map_const l ctx
              rw [hrepl (activeOf as2).length (activeOf as2) rfl,
                hrepl (activeOf as2).length (activeOf bs) hlen.symm]

/-
Heap lemmas: shared Step objects and the configuration mutators.
-/

theorem modifyAt_get (h : Heap) (f : StepConfig → StepConfig) :
    ∀ (j i : Nat), (modifyAt h j f).get? i =
      if i = j then (h.get? i).map f else h.get? i := by
  induction h with
  | nil => intro j i; simp [modifyAt]
  | cons c rest ih =>
    intro j i
    cases j with
    | zero =>
      cases i with
      | zero => simp [modifyAt]
      | succ i2 => simp [modifyAt]
    | succ j2 =>
      cases i with
      | zero => simp [modifyAt]
      | succ i2 =>
        simp only [modifyAt, List.get?_cons_succ]
        rw [ih j2 i2]
        by_cases hij : i2 = j2
        · simp [hij]
        · simp [hij, fun hc => hij (Nat.succ_injective hc)]

theorem foldl_modifyAt_get (f : StepConfig → StepConfig)
    (hidem : ∀ cfg, f (f cfg) = f cfg) :
    ∀ (refs : List Nat) (h : Heap) (i : Nat),
      (refs.foldl (fun acc j => modifyAt acc j f) h).get? i =
        if i ∈ refs then (h.get? i).map f else h.get? i := by
  intro refs
  induction refs with
  | nil => intro h i; simp
  | cons j rest ih =>
    intro h i
    simp only [List.foldl_cons]
    rw [ih (modifyAt h j f) i]
    rw [modifyAt_get h f j i]
    by_cases hij : i = j
    · subst hij
      by_cases hmem : i ∈ rest
      · simp only [hmem, if_pos, List.mem_cons, true_or, Option.map_map]
        have : f ∘ f = f := funext hidem
        rw [this]
      · simp [hmem]
    · by_cases hmem : i ∈ rest
      · simp [hij, hmem]
      · simp [hij, hmem]

theorem setRerunsFn_idem (nm : String) (n : Nat) (cfg : StepConfig) :
    setRerunsFn nm n (setRerunsFn nm n cfg) = setRerunsFn nm n cfg := by
  unfold setRerunsFn
  by_cases h : cfg.name = nm
  · simp [h]
  · simp [h]

theorem setRerunsFn_name (nm : String) (n : Nat) (cfg : StepConfig) :
    (setRerunsFn nm n cfg).name = cfg.name := by
  unfold setRerunsFn
  by_cases h : cfg.name = nm
  · simp [h]
  · simp [h]

theorem filterMap_map_opt {g g2 : Nat → Option StepConfig}
    (f : StepConfig → StepConfig) :
    ∀ (l : List Nat), (∀ i ∈ l, g2 i = (g i).map f) →
      l.filterMap g2 = (l.filterMap g).map f := by
  intro l
  induction l with
  | nil => intro _; rfl
  | cons i rest ih =>
    intro h
    have hi := h i (by simp)
    simp only [List.filterMap_cons, hi]
    cases hg : g i with
    | none => simp [ih (fun q hq => h q (by simp [hq]))]
    | some cfg => simp [ih (fun q hq => h q (by simp [hq]))]

theorem stepListH_set (h : Heap) (s : SagaObj) (nm : String) (n : Nat) :
    stepListH (setStepRerunsH h s nm n) s =
      (stepListH h s).map (setRerunsFn nm n) := by
  unfold stepListH setStepRerunsH
  apply filterMap_map_opt
  intro i hi
  rw [foldl_modifyAt_get (setRerunsFn nm n) (setRerunsFn_idem nm n)
    (refsOf s) h i]
  simp [hi]

theorem find_name_map (nm : String) (f : StepConfig → StepConfig)
    (hf : ∀ cfg, (f cfg).name = cfg.name) :
    ∀ (l : List StepConfig),
      (l.map f).find? (fun cfg => cfg.name = nm) =
        (l.find? (fun cfg => cfg.name = nm)).map f := by
  intro l
  induction l with
  | nil => rfl
  | cons cfg rest ih =>
    simp only [List.map_cons, List.find?_cons]
    by_cases h : cfg.name = nm
    · simp [hf, h]
    · simp [hf, h, ih]

/-- After setStepReruns, reading the rerun budget of the mutated name
through any saga sharing the same Step references yields the new
value. -/
theorem getStepRerunsH_set (h : Heap) (s : SagaObj) (nm : String) (n : Nat)
    (hocc : ∃ cfg ∈ stepListH h s, cfg.name = nm) :
    getStepRerunsH (setStepRerunsH h s nm n) s nm = some n := by
  unfold getStepRerunsH
  rw [stepListH_set h s nm n]
  rw [find_name_map nm (setRerunsFn nm n) (setRerunsFn_name nm n)]
  have hsome : ((stepListH h s).find? (fun cfg => cfg.name = nm)).isSome := by
    apply List.find?_isSome.mpr
    obtain ⟨cfg, hmem, hnm⟩ := hocc
    exact ⟨cfg, hmem, by simp [hnm]⟩
  obtain ⟨cfg0, hcfg0⟩ := Option.isSome_iff_exists.mp hsome
  rw [hcfg0]
  have hname : cfg0.name = nm := by
    have := List.find?_some hcfg0
    simpa using this
  simp [setRerunsFn, hname]

/-
History-bound lemmas for the workflow registry.
-/

theorem lastN_all (l : List ExecutionResult) (h : l.length ≤ 10) :
    lastN 10 l = l := by
  unfold lastN
  have : l.length - 10 = 0 := by omega
  rw [this]
  exact List.drop_zero l

theorem lastN_length (l : List ExecutionResult) :
    (lastN 10 l).length = min l.length 10 := by
  unfold lastN
  rw [List.length_drop]
  omega

theorem pushHistory_lastN (l : List ExecutionResult) (r : ExecutionResult) :
    pushHistory (lastN 10 l) r = lastN 10 (l ++ [r]) := by
  unfold pushHistory
  by_cases hlen : l.length ≤ 9
  · rw [lastN_all l (by omega)]
    have h2 : ¬ 10 < (l ++ [r]).length := by
      rw [List.length_append]
      simp
      omega
    rw [if_neg h2]
    rw [lastN_all (l ++ [r]) (by rw [List.length_append]; simp; omega)]
  · have hge : 10 ≤ l.length := by omega
    have hl10 : (lastN 10 l).length = 10 := by rw [lastN_length]; omega
    have h2 : 10 < (lastN 10 l ++ [r]).length := by
      rw [List.length_append, hl10]
      simp
    rw [if_pos h2]
    rw [List.length_append, hl10]
    simp only [List.length_cons, List.length_nil]
    have hdrop1 : (lastN 10 l ++ [r]).drop (10 + 1 - 10) =
        (lastN 10 l).drop 1 ++ [r] := by
      have : 10 + 1 - 10 = 1 := by omega
      rw [this]
      exact List.drop_append_of_le_length (by omega)
    rw [hdrop1]
    unfold lastN
    rw [List.drop_drop]
    rw [List.length_append]
    simp only [List.length_cons, List.length_nil]
    have harith : l.length - 10 + 1 = l.length + 1 - 10 := by omega
    rw [harith]
    rw [List.drop_append_of_le_length (by omega)]

theorem histFold_lastN :
    ∀ (rs : List ExecutionResult) (pre : List ExecutionResult),
      rs.foldl pushHistory (lastN 10 pre) = lastN 10 (pre ++ rs) := by
  intro rs
  induction rs with
  | nil => intro pre; simp
  | cons r rest ih =>
    intro pre
    simp only [List.foldl_cons]
    rw [pushHistory_lastN pre r]
    have := ih (pre ++ [r])
    rw [this]
    simp

theorem lookup_mapSet (ws : List (String × WorkflowDefinition))
    (nm : String) (d : WorkflowDefinition) :
    lookupWorkflow ⟨mapSet ws nm d⟩ nm = some d := by
  unfold lookupWorkflow mapSet
  by_cases hany : ws.any (fun p => p.1 = nm)
  · rw [if_pos hany]
    simp only []
    induction ws with
    | nil => simp at hany
    | cons p rest ih =>
      simp only [List.map_cons, List.find?_cons]
      by_cases hp : p.1 = nm
      · simp [hp]
      · simp only [hp, if_neg hp]
        simp only [List.any_cons] at hany
        have hrest : rest.any (fun q => q.1 = nm) := by
          rcases Bool.or_eq_true_iff.mp hany with h | h
          · exact absurd (by simpa using h) hp
          · exact h
        simpa [hp] using ih hrest
  · rw [if_neg hany]
    simp only []
    induction ws with
    | nil => simp
    | cons p rest ih =>
      simp only [List.cons_append, List.find?_cons]
      by_cases hp : p.1 = nm
      · exfalso
        apply hany
        simp [List.any_cons, hp]
      · simp only [List.any_cons] at hany
        have hrest : ¬ rest.any (fun q => q.1 = nm) := by
          intro hc
          exact hany (by simp [hc])
        simpa [hp] using ih hrest

/-- Folding whole runs of one registered workflow: the retained history
is always the last ten results, and the stored saga is untouched. -/
theorem runWorkflow_fold (nm : String) :
    ∀ (runs : List (Ctx × Nat × Nat)) (m : WorkflowManager)
      (d : WorkflowDefinition) (pre : List ExecutionResult),
      lookupWorkflow m nm = some d →
      d.executionHistory = lastN 10 pre →
      ∃ d2, lookupWorkflow
          (runs.foldl (fun acc p => (runWorkflow acc nm p.1 p.2.1 p.2.2).1) m)
          nm = some d2 ∧
        d2.saga = d.saga ∧
        d2.executionHistory = lastN 10 (pre ++ runs.map (fun p =>
          workflowResult nm d.saga p.1 p.2.1 p.2.2)) := by
  intro runs
  induction runs with
  | nil =>
    intro m d pre hl hh
    refine ⟨d, by simpa using hl, rfl, ?_⟩
    simpa using hh
  | cons p rest ih =>
    intro m d pre hl hh
    simp only [List.foldl_cons]
    have hrun : (runWorkflow m nm p.1 p.2.1 p.2.2).1 =
        ⟨mapSet m.workflows nm
          { d with
            lastExecutedAt := some p.2.2
            executionHistory := pushHistory d.executionHistory
              (workflowResult nm d.saga p.1 p.2.1 p.2.2) }⟩ := by
      unfold runWorkflow
      rw [hl]
    rw [hrun]
    have hl2 := lookup_mapSet m.workflows nm
      { d with
        lastExecutedAt := some p.2.2
        executionHistory := pushHistory d.executionHistory
          (workflowResult nm d.saga p.1 p.2.1 p.2.2) }
    have hh2 : (pushHistory d.executionHistory
          (workflowResult nm d.saga p.1 p.2.1 p.2.2)) =
        lastN 10 (pre ++ [workflowResult nm d.saga p.1 p.2.1 p.2.2]) := by
      rw [hh]
      exact pushHistory_lastN pre _
    obtain ⟨d2, hld2, hsaga, hhist⟩ := ih _ _
      (pre ++ [workflowResult nm d.saga p.1 p.2.1 p.2.2]) hl2 (by simpa using hh2)
    refine ⟨d2, hld2, by simpa using hsaga, ?_⟩
    rw [hhist]
    simp

/-
Remaining helpers for the claim theorems.
-/

theorem mergeResult_nonobj (c : Ctx) (v : JsValue)
    (h : isObjV v = false) : mergeResult c v = c := by
  cases v with
  | obj fs => simp [isObjV] at h
  | undef => rfl
  | jsNull => rfl
  | str s =>
    unfold mergeResult
    by_cases hs : s = ""
    · simp [truthy, typeofJs, hs]
    · simp [truthy, typeofJs, hs]
  | num n =>
    unfold mergeResult
    by_cases hn : n = 0
    · simp [truthy, typeofJs, hn]
    · simp [truthy, typeofJs, hn]
  | bool b =>
    unfold mergeResult
    cases b with
    | true => simp [truthy, typeofJs]
    | false => simp [truthy, typeofJs]

theorem mergeAll_filter_obj (ctx : Ctx) :
    ∀ (rs : List (Except Err JsValue)),
      mergeAll ctx rs = mergeAll ctx (rs.filter (fun r =>
        match r with
        | .ok v => isObjV v
        | .error _ => false)) := by
  suffices hgen : ∀ (rs : List (Except Err JsValue)) (acc : Ctx),
      mergeAll acc rs = mergeAll acc (rs.filter (fun r =>
        match r with
        | .ok v => isObjV v
        | .error _ => false)) by
    intro rs
    exact hgen rs ctx
  intro rs
  induction rs with
  | nil => intro acc; rfl
  | cons r rest ih =>
    intro acc
    cases r with
    | error e => simpa [mergeAll, List.filter_cons] using ih acc
    | ok v =>
      cases hv : isObjV v with
      | true => simpa [mergeAll, List.filter_cons, hv] using ih (mergeResult acc v)
      | false =>
        have hm := mergeResult_nonobj acc v hv
        simp only [mergeAll, List.filter_cons, hv]
        simp only [List.foldl_cons, hm]
        simpa [mergeAll] using ih acc

theorem filter_global_nil (l : List Event)
    (h : ∀ ev ∈ l, isGlobalComp ev = false) :
    l.filter isGlobalComp = [] := by
  induction l with
  | nil => rfl
  | cons ev rest ih =>
    simp only [List.filter_cons, h ev (by simp)]
    exact ih (fun x hx => h x (by simp [hx]))

theorem stageSim_refl (st : SagaStep) : StageSim st st := by
  cases st with
  | single s => exact ⟨rfl, rfl, rfl, fun _ => rfl⟩
  | par ss =>
    unfold StageSim
    exact List.forall₂_same.mpr (fun s _ => ⟨rfl, rfl, rfl, fun _ => rfl⟩)

theorem forall2_refl_append {R : SagaStep → SagaStep → Prop}
    (hrefl : ∀ x, R x x) :
    ∀ (pre t1 t2 : List SagaStep), List.Forall₂ R t1 t2 →
      List.Forall₂ R (pre ++ t1) (pre ++ t2) := by
  intro pre
  induction pre with
  | nil => intro t1 t2 h; simpa using h
  | cons x rest ih =>
    intro t1 t2 h
    simpa using List.Forall₂.cons (hrefl x) (ih t1 t2 h)

/-- The step as it would be if it succeeded on its first attempt with the
same value: same name, skip flag and compensate, with an action that
returns the value immediately. -/
def firstTrySucc (s : Step) (g : Ctx → JsValue) : Step :=
  { s with action := fun c _ => .ok (g c) }

theorem activeOf_none (ss : List Step) (h : ∀ s ∈ ss, s.skip = true) :
    activeOf ss = [] := by
  unfold activeOf
  rw [List.filter_eq_nil_iff]
  intro s hs
  simp [h s hs]

theorem activeOf_idem (ss : List Step) :
    activeOf (activeOf ss) = activeOf ss :=
  activeOf_all (activeOf ss) (fun s hs => (activeOf_mem ss s hs).2)

theorem lookupObj_append (ws : List (String × WorkflowDefObj))
    (nm : String) (d : WorkflowDefObj)
    (h : ¬ ws.any (fun p => p.1 = nm)) :
    lookupWorkflowObj ⟨ws ++ [(nm, d)]⟩ nm = some d := by
  unfold lookupWorkflowObj
  induction ws with
  | nil => simp
  | cons p rest ih =>
    simp only [List.cons_append, List.find?_cons]
    by_cases hp : p.1 = nm
    · exfalso
      exact h (by simp [List.any_cons, hp])
    · have hrest : ¬ rest.any (fun q => q.1 = nm) := by
        intro hc
        exact h (by simp [List.any_cons, hc])
      simpa [hp] using ih hrest

/-
Claim theorems.
-/

/-- A step whose action always returns one object field and whose
compensate succeeds. -/
def okCompStep (nm : String) (k : String) (v : Nat) : Step :=
  { name := nm
    action := fun _ _ => .ok (.obj [(k, v)])
    compensate := fun _ => .ok () }

/-- A step whose action succeeds but whose compensate throws. -/
def badCompStep (nm : String) (k : String) (v : Nat) : Step :=
  { name := nm
    action := fun _ _ => .ok (.obj [(k, v)])
    compensate := fun _ => .error (nm ++ "compboom") }

/-- A step whose action always throws. -/
def failActStep (nm : String) : Step :=
  { name := nm
    action := fun _ _ => .error (nm ++ "boom")
    compensate := fun _ => .ok () }

def c1Trace : List StepExecution :=
  [.single (okCompStep "a" "x" 1) [], .single (badCompStep "b" "y" 2) []]

def c1Saga : Saga := { steps := [] }

/-- C1, counterexample: with a trace of two completed single stages whose
later entry has a throwing compensate, the compensation loop invokes
only that later compensate — the earlier trace entry is never
compensated, even though its pair is in the trace — because the single
try block around the whole loop aborts the iteration.  The error is
still absorbed (compensate resolves). -/
theorem C1_counterexample :
    traceCompPairs c1Trace = [("b", []), ("a", [])] ∧
    compCalls (compensate c1Saga c1Trace []).1 = [("b", [])] ∧
    (compensate c1Saga c1Trace []).2 = .ok () := by
  refine ⟨rfl, rfl, rfl⟩

/-- C1, amended: an error thrown by a compensate function is caught and
never re-thrown (without a hook, compensate always resolves), the global
hook is still invoked, and every sibling inside the same parallel trace
entry is still invoked; however the remaining earlier trace entries are
not compensated: the loop stops at the first entry whose processing
throws. -/
theorem C1_compensate_error_absorbed :
    ∀ (saga : Saga) (tr : List StepExecution) (ctx : Ctx),
      (saga.lastCompensate = none → (compensate saga tr ctx).2 = .ok ()) ∧
      (∀ f, saga.lastCompensate = some f →
        Event.globalCompCall ctx ∈ (compensate saga tr ctx).1) ∧
      (∀ (ss : List Step) (cs : List Ctx),
        (compEntry (.par ss cs)).1 =
          (ss.zip cs).map (fun p => Event.compCall p.1.name p.2)) ∧
      (∀ (en : StepExecution) (rest : List StepExecution) (err : Err),
        (compEntry en).2 = .error err →
        compLoop (en :: rest) = ((compEntry en).1, some err)) := by
  intro saga tr ctx
  refine ⟨?_, ?_, ?_, ?_⟩
  · intro h
    exact compensate_resolves saga tr ctx
      (fun f hf => by rw [h] at hf; cases hf)
  · intro f hf
    rw [compensate_events, hf]
    simp
  · intro ss cs
    rfl
  · intro en rest err h
    simp [compLoop, h]

def c1wSaga : Saga :=
  { steps := [], lastCompensate := some (fun _ => .ok ()) }

theorem C1_witness :
    Event.globalCompCall [] ∈ (compensate c1wSaga c1Trace []).1 :=
  (C1_compensate_error_absorbed c1wSaga c1Trace []).2.1
    (fun _ => .ok ()) rfl

def c2Saga : Saga :=
  { steps := [.single (okCompStep "a" "x" 1),
              .single (badCompStep "b" "y" 2),
              .single (failActStep "c")] }

/-- C2, counterexample: a run in which stages a and b complete and stage
c exhausts its budget; the compensate of b throws, so only b is
compensated even though the trace records both a and b — the invoked set
is strictly smaller than the traced set. -/
theorem C2_counterexample :
    (execute c2Saga []).2.2 = .error "cboom" ∧
    traceCompPairs (execute c2Saga []).2.1 =
      [("b", [("x", 1)]), ("a", [])] ∧
    compCalls (execute c2Saga []).1 = [("b", [("x", 1)])] := by
  refine ⟨rfl, rfl, rfl⟩

/-- C2, amended: provided no compensate function itself throws, a failed
run invokes compensation exactly on the trace entries, in exact reverse
order of stage completion, each step with the context snapshot its
action originally received; steps of stages that never completed are
never compensated (compensation calls draw only from the trace). -/
theorem C2_compensation_matches_trace :
    ∀ (saga : Saga) (init : Ctx) (e : Err),
      (∀ s ∈ sagaSteps saga, ∀ c, s.compensate c = .ok ()) →
      (execute saga init).2.2 = .error e →
      compCalls (execute saga init).1 =
        traceCompPairs (execute saga init).2.1 := by
  intro saga init e hcomp herr
  unfold execute at herr ⊢
  apply execGo_fail_compCalls saga saga.steps init [] e _ herr
  intro s hs c
  rcases hs with hs | hs
  · exact hcomp s hs c
  · simp [traceSteps] at hs

def w2Saga : Saga :=
  { steps := [.single (okCompStep "wa" "x" 1),
              .single (failActStep "wc")] }

theorem C2_witness :
    compCalls (execute w2Saga []).1 =
      traceCompPairs (execute w2Saga []).2.1 :=
  C2_compensation_matches_trace w2Saga [] "wcboom"
    (by
      intro s hs c
      simp [sagaSteps, stagesSteps, stageSteps, w2Saga] at hs
      rcases hs with hs | hs
      · subst hs; rfl
      · subst hs; rfl)
    rfl

def c3Saga : Saga :=
  { steps := [.single (failActStep "c3")]
    lastCompensate := some (fun _ => .error "hookboom") }

/-- C3, counterexample: the only step fails with its own error, but the
registered global compensate hook rejects during compensation, and
execute rejects with the hook error instead of the original triggering
error. -/
theorem C3_counterexample :
    (execute c3Saga []).2.2 = .error "hookboom" ∧
    (failActStep "c3").action [] 0 = .error "c3boom" := by
  refine ⟨rfl, rfl⟩

/-- C3, amended: on the success path execute resolves to the accumulated
context with no compensation and no hook event; when a stage fails,
execute rejects with the retry-exhausted error of a dispatched step of
the saga — provided the global hook does not itself reject (if it does,
the hook error replaces the original one) — and only after compensation
has been attempted: the hook event is in the run log whenever a hook is
registered. -/
theorem C3_execute_outcomes :
    ∀ (saga : Saga) (init : Ctx),
      (∀ c, (execute saga init).2.2 = .ok c →
        ∀ ev ∈ (execute saga init).1, isCompEvent ev = false) ∧
      ((∀ f, saga.lastCompensate = some f → ∀ c, f c = .ok ()) →
        ∀ e, (execute saga init).2.2 = .error e →
          ∃ s, s ∈ sagaSteps saga ∧ s.skip = false ∧
            ∃ c, retryRes s c = .error e) ∧
      (∀ f e, saga.lastCompensate = some f →
        (execute saga init).2.2 = .error e →
        ∃ c, Event.globalCompCall c ∈ (execute saga init).1) := by
  intro saga init
  refine ⟨?_, ?_, ?_⟩
  · intro c h ev hev
    exact execGo_success_no_comp saga saga.steps init [] c h ev hev
  · intro hhook e h
    exact execGo_fail_err saga hhook saga.steps init [] e h
  · intro f e hf h
    exact execGo_fail_hook saga f hf saga.steps init [] e h

def w3Saga : Saga :=
  { steps := [.single (okCompStep "w3a" "x" 1),
              .single (failActStep "w3f")]
    lastCompensate := some (fun _ => .ok ()) }

theorem C3_witness :
    ∃ s, s ∈ sagaSteps w3Saga ∧ s.skip = false ∧
      ∃ c, retryRes s c = .error "w3fboom" :=
  (C3_execute_outcomes w3Saga []).2.1
    (by
      intro f hf c
      have hg : f = fun _ => Except.ok () := by
        injection hf with h
        exact h.symm
      rw [hg])
    "w3fboom" rfl

/-- C4: with no skipped steps and no failing actions, execute resolves
to exactly the sequential merge of every step returned partial-context
object, in stage declaration order, parallel siblings merged in
declaration order with the last declared winning overlapping keys. -/
theorem C4_final_context_merge :
    ∀ (saga : Saga) (init : Ctx),
      (∀ s ∈ sagaSteps saga, s.skip = false) →
      (∀ s ∈ sagaSteps saga, ∀ c, ∃ v, s.action c 0 = .ok v) →
      (execute saga init).2.2 = .ok (specFinalContext saga init) := by
  intro saga init hns hok
  unfold execute specFinalContext
  exact execGo_spec_merge saga saga.steps init [] hns hok

def w4Saga : Saga :=
  { steps := [.par [okCompStep "p1" "k" 1, okCompStep "p2" "k" 2],
              .single (okCompStep "s3" "z" 9)] }

theorem C4_witness :
    (execute w4Saga []).2.2 = .ok (specFinalContext w4Saga []) ∧
    specFinalContext w4Saga [] = [("k", 2), ("z", 9)] := by
  refine ⟨C4_final_context_merge w4Saga [] ?_ ?_, rfl⟩
  · intro s hs
    simp [sagaSteps, stagesSteps, stageSteps, w4Saga] at hs
    rcases hs with hs | hs | hs <;> subst hs <;> rfl
  · intro s hs c
    simp [sagaSteps, stagesSteps, stageSteps, w4Saga] at hs
    rcases hs with hs | hs | hs <;> subst hs <;> exact ⟨_, rfl⟩

/-- C5: a step with rerun budget n has its action attempted at most n+1
times; the first success short-circuits with that attempt's value and
the run proceeds to the same outcome as if the step had succeeded on its
first attempt with the same value; when every attempt fails the wrapper
rethrows the last attempt's error (which, by the failure theorem of C3,
becomes the run's terminal error). -/
theorem C5_retry_semantics :
    (∀ (s : Step) (c : Ctx) (m : Nat),
      (executeStepWithRetry s c m).1.length ≤ m + 1) ∧
    (∀ (s : Step) (c : Ctx) (m k : Nat) (v : JsValue), k ≤ m →
      (∀ a, a < k → ∃ e, s.action c a = .error e) →
      s.action c k = .ok v →
      (executeStepWithRetry s c m).2 = .ok v ∧
      (executeStepWithRetry s c m).1.length = k + 1) ∧
    (∀ (s : Step) (c : Ctx) (m : Nat) (es : Nat → Err),
      (∀ a, a ≤ m → s.action c a = .error (es a)) →
      (executeStepWithRetry s c m).2 = .error (es m) ∧
      (executeStepWithRetry s c m).1.length = m + 1) ∧
    (∀ (hook : Option (Ctx → Except Err Unit)) (s : Step) (k : Nat)
        (g : Ctx → JsValue) (pre post : List SagaStep) (init : Ctx),
      k ≤ s.maxReruns.getD 0 →
      (∀ c a, a < k → ∃ e, s.action c a = .error e) →
      (∀ c, s.action c k = .ok (g c)) →
      (execute ⟨pre ++ SagaStep.single s :: post, hook⟩ init).2.2 =
        (execute ⟨pre ++ SagaStep.single (firstTrySucc s g) :: post, hook⟩
          init).2.2) := by
  refine ⟨?_, ?_, ?_, ?_⟩
  · intro s c m
    exact executeStepWithRetry_length s c m
  · intro s c m k v hk hfail hsucc
    exact executeStepWithRetry_succeeds s c m k v hk hfail hsucc
  · intro s c m es hfail
    exact executeStepWithRetry_exhausts s c es m hfail
  · intro hook s k g pre post init hk hfail hsucc
    have hsim : StepSim s (firstTrySucc s g) := by
      refine ⟨rfl, rfl, rfl, ?_⟩
      intro c
      have h1 : retryRes s c = .ok (g c) := by
        unfold retryRes
        exact (executeStepWithRetry_succeeds s c (s.maxReruns.getD 0) k
          (g c) hk (hfail c) (hsucc c)).1
      have h2 : retryRes (firstTrySucc s g) c = .ok (g c) := by
        unfold retryRes
        rw [executeStepWithRetry_firstOk (firstTrySucc s g) c
          ((firstTrySucc s g).maxReruns.getD 0) (g c) rfl]
      rw [h1, h2]
    have hst : List.Forall₂ StageSim
        (pre ++ SagaStep.single s :: post)
        (pre ++ SagaStep.single (firstTrySucc s g) :: post) := by
      apply forall2_refl_append stageSim_refl
      exact List.Forall₂.cons
        (show StageSim (.single s) (.single (firstTrySucc s g)) from hsim)
        (List.forall₂_same.mpr (fun x _ => stageSim_refl x))
    exact (execGo_sim ⟨pre ++ SagaStep.single s :: post, hook⟩
      ⟨pre ++ SagaStep.single (firstTrySucc s g) :: post, hook⟩ rfl
      _ _ hst init [] [] List.Forall₂.nil).1

def w5Step : Step :=
  { name := "w5"
    action := fun _ a => if a = 0 then .error "w5e0" else .ok (.obj [("r", 7)])
    compensate := fun _ => .ok ()
    maxReruns := some 1 }

theorem C5_witness :
    (execute ⟨[SagaStep.single w5Step], none⟩ []).2.2 =
      (execute ⟨[SagaStep.single
        (firstTrySucc w5Step (fun _ => .obj [("r", 7)]))], none⟩ []).2.2 ∧
    (executeStepWithRetry w5Step [] 1).2 = .ok (.obj [("r", 7)]) := by
  refine ⟨?_, ?_⟩
  · exact C5_retry_semantics.2.2.2 none w5Step 1 (fun _ => .obj [("r", 7)])
      [] [] [] (by decide)
      (fun c a ha => ⟨"w5e0", by
        have h0 : a = 0 := Nat.lt_one_iff.mp ha
        subst h0
        rfl⟩)
      (fun c => rfl)
  · exact (C5_retry_semantics.2.1 w5Step [] 1 1 (.obj [("r", 7)])
      (by decide)
      (fun a ha => ⟨"w5e0", by
        have h0 : a = 0 := Nat.lt_one_iff.mp ha
        subst h0
        rfl⟩)
      rfl).1

/-- C6: when compensation runs with a registered global hook, the hook
is invoked exactly once, with the accumulated context passed to
compensation, and as the last event — after all per-step compensation
attempts, regardless of their errors; addGlobalCompensate registers a
single hook, replacing any previously registered one. -/
theorem C6_global_hook :
    ∀ (saga : Saga) (tr : List StepExecution) (ctx : Ctx)
      (f : Ctx → Except Err Unit), saga.lastCompensate = some f →
      ((compensate saga tr ctx).1.filter isGlobalComp =
        [.globalCompCall ctx]) ∧
      (∃ evs, (compensate saga tr ctx).1 = evs ++ [.globalCompCall ctx] ∧
        ∀ ev ∈ evs, isGlobalComp ev = false) ∧
      (∀ (s2 : Saga) (g1 g2 : Ctx → Except Err Unit),
        (addGlobalCompensate (addGlobalCompensate s2 g1) g2).lastCompensate
          = some g2) := by
  intro saga tr ctx f hf
  refine ⟨?_, ?_, fun s2 g1 g2 => rfl⟩
  · rw [compensate_events, hf]
    rw [List.filter_append]
    rw [filter_global_nil _ (compLoop_no_global tr.reverse)]
    simp [isGlobalComp]
  · rw [compensate_events, hf]
    exact ⟨(compLoop tr.reverse).1, rfl, compLoop_no_global tr.reverse⟩

theorem C6_witness :
    (compensate c1wSaga c1Trace []).1.filter isGlobalComp =
      [.globalCompCall []] :=
  (C6_global_hook c1wSaga c1Trace [] (fun _ => .ok ()) rfl).1

def c7Heap : Heap := [{ name := "a" }]

def c7SagaObj : SagaObj := ⟨[.single 0]⟩

def c7Mgr : WorkflowManagerObj := ⟨[]⟩

/-- C7, counterexample: registerWorkflow stores a clone, but the clone
shares the Step objects: after setStepReruns on the passed-in saga, the
stored clone observes the new rerun budget (none before, 5 after) —
its observable configuration is not unchanged. -/
theorem C7_counterexample :
    registerWorkflowObj c7Mgr "w" c7SagaObj 0 =
      .ok ⟨[("w", ⟨"w", cloneObj c7SagaObj, 0⟩)]⟩ ∧
    getStepRerunsH c7Heap (cloneObj c7SagaObj) "a" = none ∧
    getStepRerunsH (setStepRerunsH c7Heap c7SagaObj "a" 5)
      (cloneObj c7SagaObj) "a" = some 5 := by
  refine ⟨rfl, rfl, rfl⟩

/-- C7, amended: after registerWorkflow succeeds the registry holds a
clone whose stage array is a shallow copy sharing the very same Step
objects; stage-array mutators on the passed-in saga (such as addStep)
build a new array and leave the stored template's array alone, but a
per-step mutator such as setStepReruns mutates the shared Step objects,
so the new budget is observable through the stored clone. -/
theorem C7_register_clone_shares_steps :
    ∀ (m : WorkflowManagerObj) (nm : String) (s : SagaObj) (t : Nat)
      (m2 : WorkflowManagerObj),
      registerWorkflowObj m nm s t = .ok m2 →
      ∃ d, lookupWorkflowObj m2 nm = some d ∧
        d.saga = cloneObj s ∧ cloneObj s = s ∧
        (∀ st, (addStepObj s st).steps = s.steps ++ [st] ∧
          d.saga.steps = s.steps) ∧
        (∀ (h : Heap) (nm2 : String) (n : Nat),
          (∃ cfg ∈ stepListH h s, cfg.name = nm2) →
          getStepRerunsH (setStepRerunsH h s nm2 n) d.saga nm2 = some n) := by
  intro m nm s t m2 hreg
  unfold registerWorkflowObj at hreg
  by_cases hany : m.workflows.any (fun p => p.1 = nm)
  · rw [if_pos hany] at hreg
    cases hreg
  · rw [if_neg hany] at hreg
    injection hreg with h2
    subst h2
    refine ⟨⟨nm, cloneObj s, t⟩, lookupObj_append m.workflows nm _ hany,
      rfl, rfl, ?_, ?_⟩
    · intro st
      exact ⟨rfl, rfl⟩
    · intro h nm2 n hocc
      exact getStepRerunsH_set h s nm2 n hocc

theorem C7_witness :
    ∃ d, lookupWorkflowObj ⟨[("w", ⟨"w", cloneObj c7SagaObj, 0⟩)]⟩ "w" =
        some d ∧
      d.saga = cloneObj c7SagaObj ∧ cloneObj c7SagaObj = c7SagaObj ∧
      (∀ st, (addStepObj c7SagaObj st).steps = c7SagaObj.steps ++ [st] ∧
        d.saga.steps = c7SagaObj.steps) ∧
      (∀ (h : Heap) (nm2 : String) (n : Nat),
        (∃ cfg ∈ stepListH h c7SagaObj, cfg.name = nm2) →
        getStepRerunsH (setStepRerunsH h c7SagaObj nm2 n) d.saga nm2 =
          some n) :=
  C7_register_clone_shares_steps c7Mgr "w" c7SagaObj 0
    ⟨[("w", ⟨"w", cloneObj c7SagaObj, 0⟩)]⟩ rfl

/-- C8: for a registered workflow starting from an empty history, after
any sequence of runs the retained history is exactly the last ten
results in execution order (so at most ten are retained, the oldest
evicted first), and after exactly twelve runs getWorkflowHistory
returns runs three through twelve. -/
theorem C8_history_bound :
    ∀ (m : WorkflowManager) (nm : String) (d : WorkflowDefinition)
      (runs : List (Ctx × Nat × Nat)),
      lookupWorkflow m nm = some d →
      d.executionHistory = [] →
      (getWorkflowHistory
          (runs.foldl (fun acc p => (runWorkflow acc nm p.1 p.2.1 p.2.2).1) m)
          nm =
        lastN 10 (runs.map (fun p =>
          workflowResult nm d.saga p.1 p.2.1 p.2.2))) ∧
      ((getWorkflowHistory
          (runs.foldl (fun acc p => (runWorkflow acc nm p.1 p.2.1 p.2.2).1) m)
          nm).length ≤ 10) ∧
      (runs.length = 12 →
        getWorkflowHistory
          (runs.foldl (fun acc p => (runWorkflow acc nm p.1 p.2.1 p.2.2).1) m)
          nm =
        (runs.map (fun p => workflowResult nm d.saga p.1 p.2.1 p.2.2)).drop 2) := by
  intro m nm d runs hlook hempty
  obtain ⟨d2, hl2, hsaga, hh2⟩ := runWorkflow_fold nm runs m d [] hlook
    (by rw [hempty]; rfl)
  have hmain : getWorkflowHistory
      (runs.foldl (fun acc p => (runWorkflow acc nm p.1 p.2.1 p.2.2).1) m)
      nm =
      lastN 10 (runs.map (fun p => workflowResult nm d.saga p.1 p.2.1 p.2.2)) := by
    unfold getWorkflowHistory
    rw [hl2]
    simpa using hh2
  refine ⟨hmain, ?_, ?_⟩
  · rw [hmain, lastN_length]
    omega
  · intro h12
    rw [hmain]
    unfold lastN
    rw [List.length_map, h12]

def w8Saga : Saga := { steps := [] }

def w8Def : WorkflowDefinition := ⟨"w", w8Saga, 0, none, []⟩

def w8Mgr : WorkflowManager := ⟨[("w", w8Def)]⟩

def w8Runs : List (Ctx × Nat × Nat) :=
  (List.range 12).map (fun i => ([], i, i))

theorem C8_witness :
    getWorkflowHistory
        (w8Runs.foldl (fun acc p => (runWorkflow acc "w" p.1 p.2.1 p.2.2).1)
          w8Mgr) "w" =
      (w8Runs.map (fun p => workflowResult "w" w8Def.saga p.1 p.2.1 p.2.2)).drop 2 :=
  (C8_history_bound w8Mgr "w" w8Def w8Runs rfl rfl).2.2 (by decide)

/-- C9: a skipped step never has its action or compensate invoked and
never appears in the trace: every traced step is a non-skipped saga
step; when every saga step bearing a name is skipped, no event of the
run (action or compensation) carries that name; a skipped single stage
is omitted entirely; a parallel stage dispatches exactly its non-skipped
members; and a parallel stage whose members are all skipped is omitted
entirely, so a later failure compensates only the non-skipped steps. -/
theorem C9_skip_semantics :
    ∀ (saga : Saga) (init : Ctx),
      (∀ s ∈ traceSteps (execute saga init).2.1,
        s ∈ sagaSteps saga ∧ s.skip = false) ∧
      (∀ nm, (∀ s ∈ sagaSteps saga, s.name = nm → s.skip = true) →
        ∀ ev ∈ (execute saga init).1, ¬ eventName ev = some nm) ∧
      (∀ (s : Step) (rest : List SagaStep) (ctx : Ctx)
          (tr : List StepExecution), s.skip = true →
        execGo saga (.single s :: rest) ctx tr = execGo saga rest ctx tr) ∧
      (∀ (ss : List Step) (rest : List SagaStep) (ctx : Ctx)
          (tr : List StepExecution),
        execGo saga (.par ss :: rest) ctx tr =
          execGo saga (.par (activeOf ss) :: rest) ctx tr) ∧
      (∀ (ss : List Step) (rest : List SagaStep) (ctx : Ctx)
          (tr : List StepExecution), (∀ s ∈ ss, s.skip = true) →
        execGo saga (.par ss :: rest) ctx tr = execGo saga rest ctx tr) := by
  intro saga init
  refine ⟨?_, ?_, ?_, ?_, ?_⟩
  · intro s hs
    rcases execGo_traceSteps saga saga.steps init [] s hs with h | h
    · simp [traceSteps] at h
    · exact h
  · intro nm hall ev hev hn
    rcases execGo_names saga saga.steps init [] ev hev nm hn with
      ⟨s, hs, hskip, hname⟩ | ⟨s, hs, _⟩
    · rw [hall s hs hname] at hskip
      cases hskip
    · simp [traceSteps] at hs
  · intro s rest ctx tr h
    exact execGo_single_skip saga s rest ctx tr h
  · intro ss rest ctx tr
    simp only [execGo, activeOf_idem]
  · intro ss rest ctx tr h
    exact execGo_par_empty saga ss rest ctx tr (activeOf_none ss h)

def w9Skip : Step :=
  { name := "w9s"
    action := fun _ _ => .ok (.obj [("s", 1)])
    compensate := fun _ => .ok ()
    skip := true }

def w9Saga : Saga :=
  { steps := [.single (okCompStep "w9a" "x" 1), .single w9Skip] }

theorem C9_witness :
    ∀ ev ∈ (execute w9Saga []).1, ¬ eventName ev = some "w9s" :=
  (C9_skip_semantics w9Saga []).2.1 "w9s"
    (by
      intro s hs hname
      simp [sagaSteps, stagesSteps, stageSteps, w9Saga] at hs
      rcases hs with hs | hs
      · subst hs
        exact absurd hname (by decide)
      · subst hs
        rfl)

/-- C10: an action result that is not a plain object — undefined, null,
or a primitive — is silently discarded by the merge guard rather than
raising an error: merging it leaves the context unchanged, a single
stage returning such a value is still recorded in the trace and the run
continues on the untouched context, and a parallel stage merges exactly
its sibling object results. -/
theorem C10_nonobject_discarded :
    (∀ (c : Ctx) (v : JsValue), isObjV v = false → mergeResult c v = c) ∧
    (∀ (saga : Saga) (s : Step) (rest : List SagaStep) (ctx : Ctx)
        (tr : List StepExecution) (v : JsValue),
      s.skip = false →
      (executeStepWithRetry s ctx (s.maxReruns.getD 0)).2 = .ok v →
      isObjV v = false →
      (execGo saga (.single s :: rest) ctx tr).2 =
        (execGo saga rest ctx (tr ++ [.single s ctx])).2) ∧
    (∀ (ctx : Ctx) (rs : List (Except Err JsValue)),
      mergeAll ctx rs = mergeAll ctx (rs.filter (fun r =>
        match r with
        | .ok v => isObjV v
        | .error _ => false))) := by
  refine ⟨?_, ?_, ?_⟩
  · intro c v h
    exact mergeResult_nonobj c v h
  · intro saga s rest ctx tr v hskip hr hv
    rw [execGo_single_ok saga s rest ctx tr v hskip hr,
      mergeResult_nonobj ctx v hv]
  · intro ctx rs
    exact mergeAll_filter_obj ctx rs

def w10Step : Step :=
  { name := "w10"
    action := fun _ _ => .ok (.str "ignored")
    compensate := fun _ => .ok () }

theorem C10_witness :
    (execGo { steps := [] } [SagaStep.single w10Step] [("z", 1)] []).2 =
      (execGo { steps := [] } [] [("z", 1)]
        [.single w10Step [("z", 1)]]).2 :=
  C10_nonobject_discarded.2.1 { steps := [] } w10Step [] [("z", 1)] []
    (.str "ignored") rfl rfl rfl

end SagaSpec
